import Mathlib

/-!
Verification of the MetallData distributed equi-join (`mjl-merge.cpp` and
`mf-common.hpp`) against its natural-language specification.

The development shallowly embeds the C++ implementation into Lean:

* JSON values (`Json`) are a tagged union mirroring the data model of the
  spec (section 3); the `double` alternative is omitted, as no verified claim
  depends on floating point.
* Machine integers (`std::uint64_t`) are modelled as `Nat` with explicit
  reduction `% 2 ^ 64` where overflow matters.
* The distributed runtime (ranks, asynchronous sends, barriers) is modelled
  by explicit message lists; message delivery order is unspecified in the
  runtime, so the embedding fixes one canonical delivery schedule
  (source-rank-major order).  All verified properties are order-insensitive
  (multiset/count statements), matching the spec's "output order across
  ranks is unspecified".
* Fallible code (C++ `assert` followed by undefined behaviour on violation)
  is modelled with `Option`: `none` models an aborted run.
* Library functions that are not part of this repository
  (`boost::hash_combine`, `std::hash`, JSON value equality) and repository
  code outside the provided sources (`mjl-common.hpp`) are modelled from the
  spec, as marked in the individual doc comments.
-/

/-- JSON value: tagged union over null, bool, signed-64, unsigned-64, string,
ordered array, insertion-ordered string-keyed mapping (spec section 3).  The
`double` alternative of the source is omitted from the model. -/
inductive Json where
  | null : Json
  | bool (b : Bool) : Json
  | int (i : Int) : Json
  | uint (n : Nat) : Json
  | str (s : String) : Json
  | arr (elems : List Json) : Json
  | obj (fields : List (String × Json)) : Json
deriving Repr

/-- A JSON object is its insertion-ordered field list. -/
abbrev JsonObj := List (String × Json)

/-- A list of column names (`ColumnSelector` in the source). -/
abbrev ColumnSelector := List String

/-- Modelled from the spec: `ifContains` of `mjl-common.hpp` (not among the
provided sources; `mf-common.hpp` has the analogous `if_contains`): find a
field by key, returning the first occurrence's value, or nothing. -/
def lookupF (o : JsonObj) (k : String) : Option Json :=
  match o with
  | [] => none
  | (k', v) :: rest => if k' = k then some v else lookupF rest k

mutual

/-- Modelled from the spec: equality of JSON values used by the merge's
re-verification step (`operator!=` of the JSON library, which is not part of
this repository).  Spec section 3: "Object key order is preserved but does
not participate in equality"; all other kinds compare structurally, arrays
element-wise in order. -/
def jsonEq : Json → Json → Bool
  | .null, .null => true
  | .bool a, .bool b => a == b
  | .int a, .int b => a == b
  | .uint a, .uint b => a == b
  | .str a, .str b => a == b
  | .arr xs, .arr ys => jsonEqList xs ys
  | .obj fs, .obj gs => fs.length == gs.length && jsonEqFields fs gs
  | _, _ => false

/-- Element-wise equality of JSON arrays (same length, equal elements). -/
def jsonEqList : List Json → List Json → Bool
  | [], [] => true
  | x :: xs, y :: ys => jsonEq x y && jsonEqList xs ys
  | _, _ => false

/-- Field-wise comparison: every field of the first object is present in the
second with an equal value (key order insensitive). -/
def jsonEqFields : List (String × Json) → JsonObj → Bool
  | [], _ => true
  | (k, v) :: fs, gs =>
    (match lookupF gs k with
     | some w => jsonEq v w
     | none => false) && jsonEqFields fs gs

end

/-- Reduction modulo 2^64, the wrap-around of `std::uint64_t` arithmetic. -/
def u64 (n : Nat) : Nat := n % 2 ^ 64

/-- Modelled 64-bit combine step: `boost::hash_combine` (library code, not in
this repository), per the spec's formula
`seed ^= comp + 0x9e3779b9 + (seed << 6) + (seed >> 2)` (spec section 4.1),
with explicit wrap-around. -/
def stableHashCombine (seed comp : Nat) : Nat :=
  u64 (seed ^^^ u64 (comp + 0x9e3779b9 + u64 (seed * 2 ^ 6) + seed / 2 ^ 2))

/-- Modelled `std::hash<std::string_view>` (library code): a fixed
deterministic byte hash (FNV-1a over the characters).  Any fixed choice is
acceptable per spec section 4.1 ("language-neutral hash of the raw bytes"). -/
def hashString (s : String) : Nat :=
  s.data.foldl (fun h c => u64 ((h ^^^ c.toNat) * 0x100000001b3)) 0xcbf29ce484222325

mutual

/-- `hashCode` of `mjl-merge.cpp`: recursive hash of a JSON value.  Scalars
hash through the modelled `std::hash` (null to 0, bool through
`std::hash<bool>`, integers to their 64-bit pattern); objects fold key hash
then value hash over the fields in iteration order, seed 0; arrays fold the
element hashes in order, seed 0. -/
def hashCode : Json → Nat
  | .null => 0
  | .bool b => if b then 1 else 0
  | .int i => u64 (i % (2 ^ 64 : Nat)).toNat
  | .uint n => u64 n
  | .str s => hashString s
  | .arr xs => hashCodeList 0 xs
  | .obj fs => hashCodeFields 0 fs

/-- Array part of `hashCode`: fold the element hashes into the seed. -/
def hashCodeList (seed : Nat) : List Json → Nat
  | [] => seed
  | x :: xs => hashCodeList (stableHashCombine seed (hashCode x)) xs

/-- Object part of `hashCode`: fold key hash then value hash per field. -/
def hashCodeFields (seed : Nat) : List (String × Json) → Nat
  | [] => seed
  | (k, v) :: fs =>
    hashCodeFields (stableHashCombine (stableHashCombine seed (hashString k)) (hashCode v)) fs

end

/-- Inner loop of `computeHash` of `mjl-merge.cpp`, with the seed explicit:
for each column in order, if the object contains the column, combine in the
recursive value hash; absent columns contribute nothing. -/
def computeHashFrom (seed : Nat) (o : JsonObj) (sel : ColumnSelector) : Nat :=
  match sel with
  | [] => seed
  | col :: cols =>
    match lookupF o col with
    | some sub => computeHashFrom (stableHashCombine seed (hashCode sub)) o cols
    | none => computeHashFrom seed o cols

/-- `computeHash` of `mjl-merge.cpp`: the row hash over the join columns,
seed 0.  The parameter `w` mirrors the `ygm::comm&` argument of the source,
which the function body never uses. -/
def computeHash (o : JsonObj) (sel : ColumnSelector) (w : Nat) : Nat :=
  computeHashFrom 0 o sel

/-- Hash values of the fields of `o` selected by `sel`, in column order,
skipping absent columns: the "sequence of present field values". -/
def presentFieldHashes (o : JsonObj) (sel : ColumnSelector) : List Nat :=
  sel.filterMap (fun col => (lookupF o col).map hashCode)

/-- `valueOf`-style subscript assignment on an insertion-ordered JSON object
(`rec[newkey] = value` in `appendFields`): replace the value of the first
matching key in place, or append the field at the end. -/
def objSet (o : JsonObj) (k : String) (v : Json) : JsonObj :=
  match o with
  | [] => [(k, v)]
  | (k', v') :: rest => if k' = k then (k, v) :: rest else (k', v') :: objSet rest k v

/-- `appendFields` overload of `mjl-merge.cpp` without a projection list: for
each field of `other` in iteration order, assign `rec[key + suffix] = value`. -/
def appendFieldsAll (rec : JsonObj) (other : JsonObj) (suffix : String) : JsonObj :=
  other.foldl (fun rec kv => objSet rec (kv.1 ++ suffix) kv.2) rec

/-- `appendFields` of `mjl-merge.cpp`: empty projection list delegates to the
copy-all overload; otherwise for each projected key in list order, if `other`
contains it, assign `rec[key + suffix] = value`, else skip. -/
def appendFields (rec : JsonObj) (other : JsonObj) (projlst : ColumnSelector)
    (suffix : String) : JsonObj :=
  if projlst.isEmpty then appendFieldsAll rec other suffix
  else
    projlst.foldl (fun rec key =>
      match lookupF other key with
      | some entry => objSet rec (key ++ suffix) entry
      | none => rec) rec

/-- `joinRecords` of `mjl-merge.cpp`: emplace a fresh empty object, then copy
the left fields (suffix `"_l"`), then the right fields (suffix `"_r"`). -/
def joinRecords (lhs : JsonObj) (projlstLHS : ColumnSelector)
    (rhs : JsonObj) (projlstRHS : ColumnSelector) : JsonObj :=
  appendFields (appendFields [] lhs projlstLHS "_l") rhs projlstRHS "_r"

/-- Fields a projection list selects from a source object, suffixed: all
fields when the list is empty, otherwise the present projected fields in list
order.  This is the claim-side (spec-side) enumeration used to characterise
`joinRecords`. -/
def selPairs (o : JsonObj) (projlst : ColumnSelector) (suffix : String) :
    List (String × Json) :=
  (if projlst.isEmpty then o
   else projlst.filterMap (fun k => (lookupF o k).map (fun v => (k, v)))).map
    (fun kv => (kv.1 ++ suffix, kv.2))

/-- Sequential subscript-assignment of a list of fields into an empty object:
the claim-side "last-write-wins in enumeration order" collapse. -/
def insertAll (pairs : List (String × Json)) : JsonObj :=
  pairs.foldl (fun rec kv => objSet rec kv.1 kv.2) []

/-- Join-key re-verification loop of `computeJoin` (`mjl-merge.cpp`): walk
the paired join columns; `some true` when every pair is present on both
sides and equal, `some false` on the first inequality (skip the pair), and
`none` when a compared column is missing on either side — the source
`assert(lhsSub && rhsSub)` followed by an unconditional dereference, i.e. an
aborted run, not a skip. -/
def checkJoinKeys (lhs rhsObj : JsonObj) : List (String × String) → Option Bool
  | [] => some true
  | (lc, rc) :: rest =>
    match lookupF lhs lc, lookupF rhsObj rc with
    | some lv, some rv =>
      if jsonEq lv rv then checkJoinKeys lhs rhsObj rest else some false
    | _, _ => none

/-- `computeJoin` of `mjl-merge.cpp`: re-verify the join keys of a candidate
pair; on success append the joined record.  Result: `none` models an aborted
run (assertion failure: length mismatch, non-object right value, or missing
join column); `some none` a skipped non-match; `some (some rec)` an appended
record. -/
def computeJoin (lhs : JsonObj) (lhsOn : ColumnSelector) (projlstLeft : ColumnSelector)
    (rhs : Json) (rhsOn : ColumnSelector) (projlstRight : ColumnSelector) :
    Option (Option JsonObj) :=
  if lhsOn.length ≠ rhsOn.length then none
  else
    match rhs with
    | .obj rhsObj =>
      match checkJoinKeys lhs rhsObj (lhsOn.zip rhsOn) with
      | none => none
      | some false => some none
      | some true => some (some (joinRecords lhs projlstLeft rhsObj projlstRight))
    | _ => none

/-- `addJoinColumnsToOutput` of `mjl-merge.cpp`: empty output selects all
columns and is returned unchanged; otherwise each join column not yet in the
output list is pushed at the back, in join-column order. -/
def addJoinColumnsToOutput (joincol : ColumnSelector) (output : ColumnSelector) :
    ColumnSelector :=
  if output.isEmpty then output
  else joincol.foldl (fun out col => if col ∈ out then out else out ++ [col]) output

/-- The right send list of `ygm_main` (`mjl-merge.cpp`): the right projection
list with the right join columns added. -/
def sendListRhs (rhsOn projRhs : ColumnSelector) : ColumnSelector :=
  addJoinColumnsToOutput rhsOn projRhs

/-- The claim-side union formula for C6: the elements of the projection list
in order, followed by the join columns not already contained in it, in
join-column order. -/
def unionColumns (projRhs rhsOn : ColumnSelector) : ColumnSelector :=
  projRhs ++ rhsOn.filter (fun c => c ∉ projRhs)

/-- `emplace` on a JSON object (library semantics): insert only when the key
is not yet present. -/
def objEmplace (o : JsonObj) (k : String) (v : Json) : JsonObj :=
  if (lookupF o k).isSome then o else o ++ [(k, v)]

/-- `projectJsonEntry` of `mf-common.hpp`, translated faithfully: an empty
projection list returns the record converted as-is; otherwise the source
builds a fresh empty object `obj` and, for each projected column, looks the
column up in `obj` itself (not in the source object `frobj`, which the
source computes but never reads) and emplaces the found field.  `none`
models the `assert(frentry.is_object())` failing on a non-object record. -/
def projectJsonEntry (frentry : Json) (projlst : ColumnSelector) : Option Json :=
  if projlst.isEmpty then some frentry
  else
    match frentry with
    | .obj _frobj =>
      some (.obj (projlst.foldl (fun obj col =>
        match lookupF obj col with
        | some fld => objEmplace obj col fld
        | none => obj) []))
    | _ => none

/-- Modelled from the spec: the row projector `projector(sendListRhs)` of
`mjl-common.hpp` (not among the provided sources), used by the
payload-shipping phase.  Spec sections 3 and 4.5: an empty projection list
means all fields of the source record; otherwise the present projected
fields, in projection-list order. -/
def projectRow (projlst : ColumnSelector) (row : JsonObj) : JsonObj :=
  if projlst.isEmpty then row
  else projlst.filterMap (fun k => (lookupF row k).map (fun v => (k, v)))

/-- Argument validation of `ygm_main` (`mjl-merge.cpp`): the three
configuration checks, in source order, resolving `left_on`/`right_on` to
`on` when empty; returns the resolved pair on success. -/
def mergeValidate (argsOn argLhsOn argRhsOn : ColumnSelector) :
    Except String (ColumnSelector × ColumnSelector) :=
  if argLhsOn.isEmpty && argsOn.isEmpty then
    Except.error "on-columns unspecified for left frame."
  else if argRhsOn.isEmpty && argsOn.isEmpty then
    Except.error "on-columns unspecified for right frame."
  else
    let lhsOn := if argLhsOn.isEmpty then argsOn else argLhsOn
    let rhsOn := if argRhsOn.isEmpty then argsOn else argRhsOn
    if lhsOn.length ≠ rhsOn.length then
      Except.error "Number of columns of Left_On and Right_on differ"
    else Except.ok (lhsOn, rhsOn)

/-- The configuration-error condition of claim C7. -/
def configErrorCond (argsOn argLhsOn argRhsOn : ColumnSelector) : Prop :=
  (argLhsOn = [] ∧ argsOn = []) ∨ (argRhsOn = [] ∧ argsOn = []) ∨
    (if argLhsOn.isEmpty then argsOn else argLhsOn).length ≠
      (if argRhsOn.isEmpty then argsOn else argRhsOn).length

instance (a l r : ColumnSelector) : Decidable (configErrorCond a l r) := by
  unfold configErrorCond; infer_instance

/-- `JoinRegistry` of `mjl-merge.cpp`: an index entry
`(hash, owner_rank, owner_index)`.  Ranks and row indices are non-negative,
so the `int` fields are modelled as `Nat`. -/
structure JoinRegistry where
  hash : Nat
  owner_rank : Nat
  owner_index : Nat
deriving DecidableEq, Repr

/-- The non-strict total preorder underlying the `ByHashOwner` comparator:
ordered by hash, ties by owner rank. -/
def leHO (a b : JoinRegistry) : Prop :=
  a.hash < b.hash ∨ (a.hash = b.hash ∧ a.owner_rank ≤ b.owner_rank)

instance : DecidableRel leHO := fun a b => by unfold leHO; infer_instance

/-- Boolean form of `leHO`, used by the modelled sort. -/
def byHashOwnerLe (a b : JoinRegistry) : Bool :=
  a.hash < b.hash || (a.hash == b.hash && a.owner_rank ≤ b.owner_rank)

/-- Ordered insertion, the step of the modelled sort. -/
def insertHO (e : JoinRegistry) : List JoinRegistry → List JoinRegistry
  | [] => [e]
  | x :: xs => if byHashOwnerLe e x then e :: x :: xs else x :: insertHO e xs

/-- Canonical model of `std::sort(..., ByHashOwner{})` of phase 2: an
insertion sort by `(hash, owner_rank)`.  `std::sort` is unstable, so any
order of ties is a faithful schedule; this one is the canonical choice. -/
def sortHO (l : List JoinRegistry) : List JoinRegistry := l.foldr insertHO []

/-- `SameHash` functor of `mjl-merge.cpp`. -/
def sameHash (h : Nat) (e : JoinRegistry) : Bool := h == e.hash

/-- Owner grouping predicate of the phase-2 inner loop
(`dest == rhs.owner_rank()`). -/
def sameOwner (dest : Nat) (e : JoinRegistry) : Bool := dest == e.owner_rank

/-- `JoinLeftInfo` of `mjl-merge.cpp`: `(owner rank, owner index)`. -/
abbrev JoinLeftInfo := Nat × Nat

/-- `MergeCandidates` of `mjl-merge.cpp`: `local_data` holds right-side row
indices local to the receiving rank, `remote_data` the left-side
`(owner, index)` references. -/
structure MergeCandidates where
  local_data : List Nat
  remote_data : List JoinLeftInfo
deriving DecidableEq, Repr

/-- `JoinData` of `mjl-merge.cpp`: left row indices local to the receiving
rank, plus the materialised right-side values. -/
structure JoinData where
  indices : List Nat
  data : List Json
deriving Repr

/-- `packLeftInfo` of `mjl-merge.cpp`. -/
def packLeftInfo (run : List JoinRegistry) : List JoinLeftInfo :=
  run.map (fun el => (el.owner_rank, el.owner_index))

/-- `packRightInfo` of `mjl-merge.cpp`. -/
def packRightInfo (run : List JoinRegistry) : List Nat :=
  run.map (fun el => el.owner_index)

/-- `commJoinHash` of `mjl-merge.cpp`: route an index entry to rank
`hash mod world_size`; the entry itself is stored unchanged by `storeElem`
on the destination (directly when the destination is the sending rank,
through a message otherwise). -/
def commJoinHash (P rank : Nat) (h : Nat) (idx : Nat) : Nat × JoinRegistry :=
  (h % P, ⟨h, rank, idx⟩)

/-- `computeMergeInfo` of `mjl-merge.cpp` on one rank: hash every selected
row of the local shard and route the resulting index entry. -/
def computeMergeInfo (P rank : Nat) (shard : List JsonObj) (colsel : ColumnSelector) :
    List (Nat × JoinRegistry) :=
  shard.enum.map (fun rownum => commJoinHash P rank (computeHash rownum.2 colsel rank) rownum.1)

/-- All phase-1 messages of one side, in the canonical source-rank-major
delivery schedule. -/
def allPhase1Msgs (P : Nat) (shards : List (List JsonObj)) (colsel : ColumnSelector) :
    List (Nat × JoinRegistry) :=
  shards.enum.flatMap (fun rs => computeMergeInfo P rs.1 rs.2 colsel)

/-- `local.joinIndex[side]` on rank `p` after phase 1: the entries routed to
`p`, in the canonical delivery schedule. -/
def joinIndexAt (P : Nat) (shards : List (List JsonObj)) (colsel : ColumnSelector)
    (p : Nat) : List JoinRegistry :=
  ((allPhase1Msgs P shards colsel).filter (fun msg => msg.1 == p)).map (fun msg => msg.2)

/-- Phase-2 inner loop (fuelled): group a right-side equal-hash run by
owner rank; for each consecutive owner group emit one candidate bundle
containing that group's owner indices and the whole packed left run.  The
fuel bounds the number of iterations; the wrapper `ownerBundles` supplies
the list length, which always suffices. -/
def ownerBundlesF (lhsJoinData : List JoinLeftInfo) :
    Nat → List JoinRegistry → List (Nat × MergeCandidates)
  | _, [] => []
  | 0, _ :: _ => []
  | fuel + 1, re :: rs =>
    (re.owner_rank,
      ⟨packRightInfo (re :: rs.takeWhile (sameOwner re.owner_rank)), lhsJoinData⟩) ::
      ownerBundlesF lhsJoinData fuel (rs.dropWhile (sameOwner re.owner_rank))

/-- Phase-2 inner loop, §b.2 of `ygm_main` (`mjl-merge.cpp`). -/
def ownerBundles (lhsJoinData : List JoinLeftInfo) (run : List JoinRegistry) :
    List (Nat × MergeCandidates) :=
  ownerBundlesF lhsJoinData run.length run

/-- Phase-2 two-pointer merge (fuelled): walk the two sorted indices in
equal-hash runs; skip the smaller hash; on equal hashes pack the left run
and emit one bundle per right-side owner group, then continue past both
runs.  The fuel bounds the iterations; the wrapper supplies the sum of the
list lengths, which always suffices. -/
def matchLoopF : Nat → List JoinRegistry → List JoinRegistry →
    List (Nat × MergeCandidates)
  | _, [], _ => []
  | _, _ :: _, [] => []
  | 0, _ :: _, _ :: _ => []
  | fuel + 1, le :: ls, re :: rs =>
    let lseqr := ls.dropWhile (sameHash le.hash)
    let rseqr := rs.dropWhile (sameHash re.hash)
    if le.hash < re.hash then matchLoopF fuel lseqr (re :: rs)
    else if re.hash < le.hash then matchLoopF fuel (le :: ls) rseqr
    else
      ownerBundles (packLeftInfo (le :: ls.takeWhile (sameHash le.hash)))
          (re :: rs.takeWhile (sameHash re.hash)) ++
        matchLoopF fuel lseqr rseqr

/-- Phase-2 candidate matching of `ygm_main` (`mjl-merge.cpp`): the
two-pointer walk over the two sorted per-rank indices. -/
def matchLoop (L R : List JoinRegistry) : List (Nat × MergeCandidates) :=
  matchLoopF (L.length + R.length) L R

/-- The merge inputs after argument resolution: world size, the two
datasets as per-rank shards of JSON objects, the resolved join columns and
the projection lists. -/
structure MergeIn where
  P : Nat
  lsh : List (List JsonObj)
  rsh : List (List JsonObj)
  lhsOn : ColumnSelector
  rhsOn : ColumnSelector
  projLhs : ColumnSelector
  projRhs : ColumnSelector

/-- Sorted left index of rank `p` at the start of phase 2. -/
def sortedLIndexAt (m : MergeIn) (p : Nat) : List JoinRegistry :=
  sortHO (joinIndexAt m.P m.lsh m.lhsOn p)

/-- Sorted right index of rank `p` at the start of phase 2. -/
def sortedRIndexAt (m : MergeIn) (p : Nat) : List JoinRegistry :=
  sortHO (joinIndexAt m.P m.rsh m.rhsOn p)

/-- Candidate bundles emitted by rank `p` in phase 2, with destinations. -/
def candMsgsFrom (m : MergeIn) (p : Nat) : List (Nat × MergeCandidates) :=
  matchLoop (sortedLIndexAt m p) (sortedRIndexAt m p)

/-- All phase-2 candidate messages, canonical source-rank-major schedule. -/
def allCandMsgs (m : MergeIn) : List (Nat × MergeCandidates) :=
  (List.range m.P).flatMap (fun p => candMsgsFrom m p)

/-- `local.mergeCandidates` on rank `o` after phase 2. -/
def mergeCandidatesAt (m : MergeIn) (o : Nat) : List MergeCandidates :=
  ((allCandMsgs m).filter (fun msg => msg.1 == o)).map (fun msg => msg.2)

/-- Phase-3 grouping of the left references of one bundle by owner
(fuelled): consecutive owner groups, each with the owner rank and the left
row indices of the group, mirroring the `find_if` spans of the source. -/
def groupByOwnerF : Nat → List JoinLeftInfo → List (Nat × List Nat)
  | _, [] => []
  | 0, _ :: _ => []
  | fuel + 1, lr :: lrs =>
    (lr.1, lr.2 :: (lrs.takeWhile (fun el => el.1 == lr.1)).map (fun el => el.2)) ::
      groupByOwnerF fuel (lrs.dropWhile (fun el => el.1 == lr.1))

/-- Phase-3 owner grouping of `ygm_main` (`mjl-merge.cpp`). -/
def groupByOwner (lrefs : List JoinLeftInfo) : List (Nat × List Nat) :=
  groupByOwnerF lrefs.length lrefs

/-- Phase 3 for a single candidate bundle on rank `o`: project the
referenced local right rows through the right send list into the payload
array, then send one `JoinData` per left owner group.  `none` models the
source's `assert(beg != lim)` on an empty left reference list (followed by
an out-of-bounds dereference).  JSON serialisation and reparsing of the
payload between ranks is modelled as the identity. -/
def shipCandidate (m : MergeIn) (o : Nat) (b : MergeCandidates) :
    Option (List (Nat × JoinData)) :=
  let jsdata := b.local_data.map (fun idx =>
    Json.obj (projectRow (sendListRhs m.rhsOn m.projRhs) ((m.rsh.getD o []).getD idx [])))
  if b.remote_data.isEmpty then none
  else some ((groupByOwner b.remote_data).map (fun g => (g.1, JoinData.mk g.2 jsdata)))

/-- Sequencing of possibly-aborting steps: `none` as soon as one step
aborts. -/
def seqOpt : List (Option α) → Option (List α)
  | [] => some []
  | none :: _ => none
  | some a :: rest => (seqOpt rest).map (fun as => a :: as)

/-- Phase-3 messages emitted by rank `o`. -/
def payloadMsgsFrom (m : MergeIn) (o : Nat) : Option (List (Nat × JoinData)) :=
  (seqOpt ((mergeCandidatesAt m o).map (shipCandidate m o))).map List.flatten

/-- All phase-3 payload messages, canonical source-rank-major schedule. -/
def allPayloadMsgs (m : MergeIn) : Option (List (Nat × JoinData)) :=
  (seqOpt ((List.range m.P).map (payloadMsgsFrom m))).map List.flatten

/-- Phase 4 on rank `p`: for each received bundle, for each referenced
local left row, for each materialised right value, re-verify and join
(`computeJoin`); `none` when any `computeJoin` call aborts, otherwise the
appended records in order. -/
def localJoinAt (m : MergeIn) (p : Nat) (msgs : List JoinData) :
    Option (List JsonObj) :=
  (seqOpt (msgs.flatMap (fun el =>
    el.indices.flatMap (fun lhsIdx =>
      el.data.map (fun remoteObj =>
        computeJoin ((m.lsh.getD p []).getD lhsIdx []) m.lhsOn m.projLhs
          remoteObj m.rhsOn m.projRhs))))).map (fun steps => steps.filterMap id)

/-- The whole four-phase join: per-rank output shard lists, or `none` for
an aborted run. -/
def runMerge (m : MergeIn) : Option (List (List JsonObj)) :=
  (allPayloadMsgs m).bind (fun msgs =>
    seqOpt ((List.range m.P).map (fun p =>
      localJoinAt m p ((msgs.filter (fun msg => msg.1 == p)).map (fun msg => msg.2)))))

/-- `world.all_reduce_sum(outVec.countAllLocal())` of `ygm_main`: the total
number of joined records over all ranks. -/
def totalMerged (m : MergeIn) : Option Nat :=
  (runMerge m).map (fun outs => (outs.map List.length).sum)

/-- The result string of rank 0 on success. -/
def joinedMessage (n : Nat) : String := "joined " ++ toString n ++ " records.\n"

/-- The orchestration driver `ygm_main` of `mjl-merge.cpp` after the
datasets are opened: validate the join configuration (an error is caught,
rank 0 returns the message, exit code 1, and no join phase runs), else run
the join and report.  The result is `(exit code, rank-0 return string)`,
`none` for an aborted run. -/
def mergeRun (argsOn argLhsOn argRhsOn projLhs projRhs : ColumnSelector)
    (P : Nat) (lsh rsh : List (List JsonObj)) : Option (Nat × Option String) :=
  match mergeValidate argsOn argLhsOn argRhsOn with
  | Except.error e => some (1, some e)
  | Except.ok onCols =>
    (totalMerged ⟨P, lsh, rsh, onCols.1, onCols.2, projLhs, projRhs⟩).map
      (fun n => (0, some (joinedMessage n)))

/-- Rows of a sharded dataset, tagged with `(owner rank, owner index)`. -/
def indexedRows (shards : List (List JsonObj)) : List ((Nat × Nat) × JsonObj) :=
  shards.enum.flatMap (fun rs => rs.2.enum.map (fun ir => ((rs.1, ir.1), ir.2)))

/-- The element-wise join predicate of the claims: every paired join column
is present on both rows and the values are equal. -/
def rowsMatch (lhsOn rhsOn : ColumnSelector) (l r : JsonObj) : Bool :=
  (lhsOn.zip rhsOn).all (fun c =>
    match lookupF l c.1, lookupF r c.2 with
    | some lv, some rv => jsonEq lv rv
    | _, _ => false)

/-- Cartesian product of two lists, first-major order. -/
def pairsOf (A : List α) (B : List β) : List (α × β) :=
  A.flatMap (fun a => B.map (fun b => (a, b)))

/-- All matching (left row, right row) pairs of the two datasets. -/
def matchingPairs (m : MergeIn) : List (((Nat × Nat) × JsonObj) × ((Nat × Nat) × JsonObj)) :=
  (pairsOf (indexedRows m.lsh) (indexedRows m.rsh)).filter
    (fun pr => rowsMatch m.lhsOn m.rhsOn pr.1.2 pr.2.2)

/-- The joined record a matching pair produces: the left row joined with
the right row as projected through the right send list. -/
def joinedRecordOf (m : MergeIn) (pr : ((Nat × Nat) × JsonObj) × ((Nat × Nat) × JsonObj)) :
    JsonObj :=
  joinRecords pr.1.2 m.projLhs (projectRow (sendListRhs m.rhsOn m.projRhs) pr.2.2) m.projRhs

/-- Claim C1 as stated: the run completes, the reported count is the number
of matching pairs and equals the sum of the per-rank output lengths, and
the output holds exactly one joined record per matching pair. -/
def C1Statement (m : MergeIn) : Prop :=
  ∃ outs, runMerge m = some outs ∧
    totalMerged m = some (matchingPairs m).length ∧
    (outs.map List.length).sum = (matchingPairs m).length ∧
    outs.flatten.Perm ((matchingPairs m).map (joinedRecordOf m))

/-- First-occurrence deduplication of a key list. -/
def dedupFirst : List Nat → List Nat
  | [] => []
  | k :: ks => k :: (dedupFirst ks).filter (fun k' => !(k == k'))

/-- The closed form of the phase-2 candidate matcher on sorted indices
(claim C4): for each hash occurring on both sides, one bundle per distinct
right-side owner, carrying that owner's right row indices and the packed
left equal-hash run; one-sided hashes produce nothing. -/
def candidateSpec (L R : List JoinRegistry) : List (Nat × MergeCandidates) :=
  ((dedupFirst (L.map (fun e => e.hash))).filter
      (fun h => h ∈ R.map (fun e => e.hash))).flatMap (fun h =>
    (dedupFirst ((R.filter (sameHash h)).map (fun e => e.owner_rank))).map (fun o =>
      (o, ⟨packRightInfo ((R.filter (sameHash h)).filter (sameOwner o)),
           packLeftInfo (L.filter (sameHash h))⟩)))

/-- Sortedness by `(hash, owner_rank)` ascending, the postcondition of the
phase-2 sort. -/
def SortedHO (l : List JoinRegistry) : Prop := List.Pairwise leHO l

instance (l : List JoinRegistry) : Decidable (SortedHO l) := by
  unfold SortedHO; infer_instance

/-- The index entry phase 1 generates for a tagged row. -/
def entryOf (onCols : ColumnSelector) (x : (Nat × Nat) × JsonObj) : JoinRegistry :=
  ⟨computeHashFrom 0 x.2 onCols, x.1.1, x.1.2⟩

/-- The `(owner, index)` references of a pair of index entries: left
reference and right `(owner rank, owner index)`. -/
def pairRefs (pr : JoinRegistry × JoinRegistry) : JoinLeftInfo × (Nat × Nat) :=
  ((pr.1.owner_rank, pr.1.owner_index), (pr.2.owner_rank, pr.2.owner_index))

/-- All hash-equal pairs of entries of the two lists, left-major order. -/
def hashPairsAt (L R : List JoinRegistry) : List (JoinRegistry × JoinRegistry) :=
  L.flatMap (fun le => (R.filter (sameHash le.hash)).map (fun re => (le, re)))

/-- The candidate row pairs a list of phase-2 bundles encodes: for each
bundle, each left reference paired with each right index, the right owner
being the bundle's destination. -/
def bundlePairs (msgs : List (Nat × MergeCandidates)) : List (JoinLeftInfo × (Nat × Nat)) :=
  msgs.flatMap (fun ob =>
    ob.2.remote_data.flatMap (fun lr => ob.2.local_data.map (fun j => (lr, (ob.1, j)))))

/-- What phase 4 contributes for one routed candidate row pair, assuming no
aborted assertion: the joined record when the re-verification succeeds,
nothing on a non-match. -/
def stepPure (m : MergeIn) (pr : JoinLeftInfo × (Nat × Nat)) : Option JsonObj :=
  let lrow := (m.lsh.getD pr.1.1 []).getD pr.1.2 []
  let rrow := (m.rsh.getD pr.2.1 []).getD pr.2.2 []
  if rowsMatch m.lhsOn m.rhsOn lrow rrow then
    some (joinRecords lrow m.projLhs (projectRow (sendListRhs m.rhsOn m.projRhs) rrow) m.projRhs)
  else none

/-- The `computeJoin` call phase 4 performs for one routed candidate row
pair: the referenced local left row against the materialised projection of
the referenced right row. -/
def computeJoinOnPair (m : MergeIn) (pr : JoinLeftInfo × (Nat × Nat)) :
    Option (Option JsonObj) :=
  computeJoin ((m.lsh.getD pr.1.1 []).getD pr.1.2 []) m.lhsOn m.projLhs
    (Json.obj (projectRow (sendListRhs m.rhsOn m.projRhs) ((m.rsh.getD pr.2.1 []).getD pr.2.2 [])))
    m.rhsOn m.projRhs

/-- All candidate row pairs routed by phase 2, over all ranks. -/
def routedPairs (m : MergeIn) : List (JoinLeftInfo × (Nat × Nat)) :=
  bundlePairs (allCandMsgs m)

/-- The payload messages `shipCandidate` produces for one bundle on rank `o`
when its assertion does not fire: one `JoinData` per left owner group, with
the materialised right rows. -/
def payloadPure (m : MergeIn) (o : Nat) (b : MergeCandidates) : List (Nat × JoinData) :=
  (groupByOwner b.remote_data).map (fun g =>
    (g.1, ⟨g.2, b.local_data.map (fun idx =>
      Json.obj (projectRow (sendListRhs m.rhsOn m.projRhs) ((m.rsh.getD o []).getD idx [])))⟩))

/-- All phase-3 payload messages of a non-aborting run, canonical
source-rank-major schedule. -/
def payloadMsgs (m : MergeIn) : List (Nat × JoinData) :=
  (List.range m.P).flatMap (fun o => (mergeCandidatesAt m o).flatMap (payloadPure m o))

/-- The candidate row pairs of the phase-3 payload, grouped by the right
rank that materialised them. -/
def payloadPairs (m : MergeIn) : List (JoinLeftInfo × (Nat × Nat)) :=
  (List.range m.P).flatMap (fun o => (mergeCandidatesAt m o).flatMap (fun b =>
    b.remote_data.flatMap (fun lr => b.local_data.map (fun j => (lr, (o, j))))))

/-- The candidate row pairs rank `p` processes in phase 4, in delivery
order: the payload pairs whose left owner is `p`. -/
def pairsListAt (m : MergeIn) (p : Nat) : List (JoinLeftInfo × (Nat × Nat)) :=
  (List.range m.P).flatMap (fun o => (mergeCandidatesAt m o).flatMap (fun b =>
    (b.remote_data.filter (fun lr => lr.1 == p)).flatMap (fun lr =>
      b.local_data.map (fun j => (lr, (o, j))))))

/-- The per-rank output shards of a non-aborting run: each routed candidate
pair re-verified and joined by `stepPure`. -/
def joinOuts (m : MergeIn) : List (List JsonObj) :=
  (List.range m.P).map (fun p => (pairsListAt m p).filterMap (stepPure m))

/-- A one-rank input whose single left and right rows agree under JSON
value equality (claim C1's matching condition) but hash differently: the
join value is an object with its two keys in opposite orders on the two
sides. -/
def cexM1 : MergeIn :=
  ⟨1, [[[("k", Json.obj [("a", Json.int 1), ("b", Json.int 2)])]]],
      [[[("k", Json.obj [("b", Json.int 2), ("a", Json.int 1)])]]],
      ["k"], ["k"], [], []⟩

theorem presentFieldHashes_cons_none {o : JsonObj} {col : String} {cols : ColumnSelector}
    (h : lookupF o col = none) :
    presentFieldHashes o (col :: cols) = presentFieldHashes o cols := by
  simp [presentFieldHashes, h]

theorem presentFieldHashes_cons_some {o : JsonObj} {col : String} {cols : ColumnSelector}
    {v : Json} (h : lookupF o col = some v) :
    presentFieldHashes o (col :: cols) = hashCode v :: presentFieldHashes o cols := by
  simp [presentFieldHashes, h]

theorem computeHashFrom_eq_foldl (o : JsonObj) :
    ∀ (sel : ColumnSelector) (seed : Nat),
      computeHashFrom seed o sel = (presentFieldHashes o sel).foldl stableHashCombine seed := by
  intro sel
  induction sel with
  | nil => intro seed; rfl
  | cons col cols ih =>
    intro seed
    cases h : lookupF o col with
    | none =>
      rw [presentFieldHashes_cons_none h]
      simp only [computeHashFrom, h]
      exact ih seed
    | some sub =>
      rw [presentFieldHashes_cons_some h]
      simp only [computeHashFrom, h, List.foldl_cons]
      exact ih _

theorem presentFieldHashes_congr (o o' : JsonObj) (sel : ColumnSelector)
    (h : ∀ c ∈ sel, lookupF o' c = lookupF o c) :
    presentFieldHashes o' sel = presentFieldHashes o sel := by
  unfold presentFieldHashes
  induction sel with
  | nil => rfl
  | cons col cols ih =>
    simp only [List.filterMap_cons]
    rw [h col (by simp), ih (fun c hc => h c (by simp [hc]))]

theorem computeHashFrom_eq_foldl_cols (o : JsonObj) :
    ∀ (sel : ColumnSelector) (seed : Nat),
      computeHashFrom seed o sel
        = sel.foldl (fun res col =>
            match lookupF o col with
            | some v => stableHashCombine res (hashCode v)
            | none => res) seed := by
  intro sel
  induction sel with
  | nil => intro seed; rfl
  | cons col cols ih =>
    intro seed
    cases h : lookupF o col with
    | none => simp only [computeHashFrom, List.foldl_cons, h]; exact ih seed
    | some sub => simp only [computeHashFrom, List.foldl_cons, h]; exact ih _

/-- C5. Row hash definition and purity: `computeHash` is the fold from seed 0
that, for each join column in list order, combines in the recursive value
hash of the field when present and contributes nothing when absent; it
factors through the sequence of present field values, is independent of the
rank/communicator argument, and is unchanged by fields outside the join
columns. -/
theorem C5_row_hash_definition_and_purity (o o' : JsonObj) (sel : ColumnSelector) (w w' : Nat) :
    computeHash o sel w
      = sel.foldl (fun res col =>
          match lookupF o col with
          | some v => stableHashCombine res (hashCode v)
          | none => res) 0
    ∧ computeHash o sel w = (presentFieldHashes o sel).foldl stableHashCombine 0
    ∧ computeHash o sel w = computeHash o sel w'
    ∧ ((∀ c ∈ sel, lookupF o' c = lookupF o c) → computeHash o' sel w = computeHash o sel w) := by
  refine ⟨computeHashFrom_eq_foldl_cols o sel 0, computeHashFrom_eq_foldl o sel 0, rfl, ?_⟩
  intro hagree
  show computeHashFrom 0 o' sel = computeHashFrom 0 o sel
  rw [computeHashFrom_eq_foldl, computeHashFrom_eq_foldl,
    presentFieldHashes_congr o o' sel hagree]

/-- Witness for C5 at concrete inputs: a row with an extra field outside the
join columns and a reordering of that field hashes identically. -/
theorem C5_row_hash_definition_and_purity_witness :
    computeHash [("k", Json.int 7), ("z", Json.str "extra")] ["k"] 3
      = computeHash [("k", Json.int 7)] ["k"] 5 := by
  have h := C5_row_hash_definition_and_purity
    [("k", Json.int 7)] [("k", Json.int 7), ("z", Json.str "extra")] ["k"] 5 3
  have h2 := h.2.2.2 (by intro c hc; rw [List.mem_singleton] at hc; subst hc; rfl)
  have h3 := (C5_row_hash_definition_and_purity
    [("k", Json.int 7), ("z", Json.str "extra")] [] ["k"] 3 5).2.2.1
  exact h3.trans h2

theorem addJoinColumnsToOutput_foldl (joincol : ColumnSelector) :
    ∀ out : ColumnSelector, joincol.Nodup →
      joincol.foldl (fun out col => if col ∈ out then out else out ++ [col]) out
        = out ++ joincol.filter (fun c => c ∉ out) := by
  induction joincol with
  | nil => intro out _; simp
  | cons c cs ih =>
    intro out hnd
    rcases List.nodup_cons.mp hnd with ⟨hcn, hnd'⟩
    by_cases hc : c ∈ out
    · simp only [List.foldl_cons, if_pos hc, List.filter_cons]
      have : decide (c ∉ out) = false := by simp [hc]
      rw [this]
      simp only [Bool.false_eq_true, if_false]
      exact ih out hnd'
    · simp only [List.foldl_cons, if_neg hc, List.filter_cons]
      have hdec : decide (c ∉ out) = true := by simp [hc]
      rw [hdec]
      simp only [if_true]
      rw [ih (out ++ [c]) hnd']
      rw [List.append_assoc]
      congr 1
      simp only [List.singleton_append]
      congr 1
      apply List.filter_congr
      intro x hx
      have hxc : x ≠ c := fun h => hcn (h ▸ hx)
      simp [List.mem_append, hxc]

/-- C6 (amended). Right send list: for a non-empty right projection list and
duplicate-free join columns, the send list is the projection list followed by
the join columns not already contained in it, in join-column order; an empty
right projection list is returned unchanged (empty means all fields, which
already include the join columns). -/
theorem C6_right_send_list_amended (rhsOn projRhs : ColumnSelector)
    (hnd : rhsOn.Nodup) :
    (projRhs ≠ [] → sendListRhs rhsOn projRhs = unionColumns projRhs rhsOn)
    ∧ sendListRhs rhsOn [] = [] := by
  constructor
  · intro hne
    unfold sendListRhs addJoinColumnsToOutput unionColumns
    rw [if_neg (by simpa using hne)]
    exact addJoinColumnsToOutput_foldl rhsOn projRhs hnd
  · unfold sendListRhs addJoinColumnsToOutput
    simp

/-- Witness for C6 at concrete inputs: a projection omitting the join key
gets the key appended, and the empty projection stays empty. -/
theorem C6_right_send_list_amended_witness :
    sendListRhs ["k"] ["a"] = unionColumns ["a"] ["k"] ∧ sendListRhs ["k"] [] = [] := by
  have h := C6_right_send_list_amended ["k"] ["a"] (by decide)
  exact ⟨h.1 (by decide), h.2⟩

/-- C6 counterexample: with an empty right projection list the claim's union
formula would demand the join columns, but the source returns the empty list
unchanged (empty meaning all columns). -/
theorem C6_counterexample : sendListRhs ["k"] [] ≠ unionColumns [] ["k"] := by
  decide

/-- C2: a hash-matched candidate pair missing a join column on either side is
not skipped; `computeJoin` hits `assert(lhsSub && rhsSub)` and dereferences
the null result — an aborted run (modelled `none`), contradicting the
spec's "missing either side => skip" (here both rows are `{}`, whose row
hashes over `["k"]` are both 0, so the pair does reach `computeJoin`). -/
theorem C2_missing_join_key_aborts :
    computeJoin [] ["k"] [] (Json.obj []) ["k"] [] = none
    ∧ computeHash [] ["k"] 0 = computeHash [] ["k"] 0 := by
  exact ⟨rfl, rfl⟩

/-- C9: `projectJsonEntry` of `mf-common.hpp` with a non-empty projection
list looks each column up in the freshly created empty output object instead
of the source object (`frobj` is computed but never read), so it returns the
empty object and drops every field — here a record containing the projected
column `"k"` projects to `{}` instead of `{"k": 1}`. -/
theorem C9_projectJsonEntry_drops_fields :
    projectJsonEntry (Json.obj [("k", Json.int 1)]) ["k"] = some (Json.obj [])
    ∧ projectJsonEntry (Json.obj [("k", Json.int 1)]) [] = some (Json.obj [("k", Json.int 1)]) := by
  exact ⟨rfl, rfl⟩

theorem objSet_append_of_not_mem (base : JsonObj) (acc : JsonObj) (k : String) (v : Json)
    (h : ∀ kb ∈ base.map Prod.fst, kb ≠ k) :
    objSet (base ++ acc) k v = base ++ objSet acc k v := by
  induction base with
  | nil => simp
  | cons kv rest ih =>
    obtain ⟨k', v'⟩ := kv
    have hk : k' ≠ k := h k' (by simp)
    simp only [List.cons_append, objSet, if_neg hk, List.cons.injEq, true_and]
    exact ih (fun kb hkb => h kb (by simp [hkb]))

theorem mem_keys_objSet (o : JsonObj) (k : String) (v : Json) :
    ∀ k' ∈ (objSet o k v).map Prod.fst, k' ∈ o.map Prod.fst ∨ k' = k := by
  induction o with
  | nil => simp [objSet]
  | cons kv rest ih =>
    obtain ⟨k₀, v₀⟩ := kv
    intro k' hk'
    by_cases h : k₀ = k
    · simp only [objSet, if_pos h, List.map_cons, List.mem_cons] at hk'
      rcases hk' with h' | h'
      · right; exact h'
      · left; simp [h']
    · simp only [objSet, if_neg h, List.map_cons, List.mem_cons] at hk'
      rcases hk' with h' | h'
      · left; simp [h']
      · rcases ih k' h' with h'' | h''
        · left; simp [h'']
        · right; exact h''

theorem mem_keys_foldl_objSet (pairs : List (String × Json)) :
    ∀ (acc : JsonObj),
      ∀ k' ∈ (pairs.foldl (fun rec kv => objSet rec kv.1 kv.2) acc).map Prod.fst,
        k' ∈ acc.map Prod.fst ∨ k' ∈ pairs.map Prod.fst := by
  induction pairs with
  | nil => intro acc k' h; exact Or.inl h
  | cons kv rest ih =>
    intro acc k' h
    simp only [List.foldl_cons] at h
    rcases ih (objSet acc kv.1 kv.2) k' h with h' | h'
    · rcases mem_keys_objSet acc kv.1 kv.2 k' h' with h'' | h''
      · exact Or.inl h''
      · right; simp [h'']
    · right; simp [h']

theorem foldl_objSet_append (pairs : List (String × Json)) :
    ∀ (base acc : JsonObj),
      (∀ kb ∈ base.map Prod.fst, ∀ kp ∈ pairs.map Prod.fst, kb ≠ kp) →
      pairs.foldl (fun rec kv => objSet rec kv.1 kv.2) (base ++ acc)
        = base ++ pairs.foldl (fun rec kv => objSet rec kv.1 kv.2) acc := by
  induction pairs with
  | nil => intro base acc _; simp
  | cons kv rest ih =>
    intro base acc hdisj
    simp only [List.foldl_cons]
    rw [objSet_append_of_not_mem base acc kv.1 kv.2
      (fun kb hkb => hdisj kb hkb kv.1 (by simp))]
    exact ih base (objSet acc kv.1 kv.2)
      (fun kb hkb kp hkp => hdisj kb hkb kp (by simp [hkp]))

theorem suffix_l_ne_suffix_r (a b : String) : a ++ "_l" ≠ b ++ "_r" := by
  intro h
  have hd := congrArg String.data h
  rw [String.data_append, String.data_append] at hd
  have hl : ("_l" : String).data = ['_', 'l'] := rfl
  have hr : ("_r" : String).data = ['_', 'r'] := rfl
  rw [hl, hr] at hd
  have h1 : (a.data ++ ['_', 'l']).getLast? = some 'l' := by
    rw [show a.data ++ ['_', 'l'] = (a.data ++ ['_']) ++ ['l'] by simp]
    exact List.getLast?_concat _
  have h2 : (b.data ++ ['_', 'r']).getLast? = some 'r' := by
    rw [show b.data ++ ['_', 'r'] = (b.data ++ ['_']) ++ ['r'] by simp]
    exact List.getLast?_concat _
  rw [hd, h2] at h1
  exact absurd (Option.some.inj h1) (by decide)

theorem foldl_proj_eq_selPairs (other : JsonObj) (suffix : String) :
    ∀ (projlst : ColumnSelector) (rec : JsonObj),
      projlst.foldl (fun rec key =>
          match lookupF other key with
          | some entry => objSet rec (key ++ suffix) entry
          | none => rec) rec
        = ((projlst.filterMap (fun k => (lookupF other k).map (fun v => (k, v)))).map
            (fun kv => (kv.1 ++ suffix, kv.2))).foldl
            (fun rec kv => objSet rec kv.1 kv.2) rec := by
  intro projlst
  induction projlst with
  | nil => intro rec; rfl
  | cons key keys ih =>
    intro rec
    simp only [List.foldl_cons, List.filterMap_cons]
    cases h : lookupF other key with
    | none =>
      simp only [h, Option.map_none]
      exact ih rec
    | some entry =>
      simp only [h, Option.map_some, List.map_cons, List.foldl_cons]
      exact ih _

theorem appendFields_eq_foldl_selPairs (rec : JsonObj) (other : JsonObj)
    (projlst : ColumnSelector) (suffix : String) :
    appendFields rec other projlst suffix
      = (selPairs other projlst suffix).foldl (fun rec kv => objSet rec kv.1 kv.2) rec := by
  unfold appendFields selPairs
  by_cases hp : projlst.isEmpty
  · rw [if_pos hp, if_pos hp]
    unfold appendFieldsAll
    rw [List.foldl_map]
  · rw [if_neg hp, if_neg hp]
    exact foldl_proj_eq_selPairs other suffix projlst rec

theorem selPairs_keys_suffixed (o : JsonObj) (projlst : ColumnSelector) (suffix : String) :
    ∀ k ∈ (selPairs o projlst suffix).map Prod.fst, ∃ a, k = a ++ suffix := by
  intro k hk
  unfold selPairs at hk
  simp only [List.map_map, List.mem_map] at hk
  obtain ⟨kv, _, hkv⟩ := hk
  exact ⟨kv.1, hkv.symm⟩

/-- C8. Joined-record shape: the record built by `joinRecords` is the block
of left fields selected by the left projection list (all fields when empty),
keys suffixed `"_l"`, followed by the block of right fields suffixed
`"_r"`; within each block the selected fields are assigned in enumeration
order into an initially empty object (so duplicate keys within one side
resolve last-write-wins, first position kept), and the right block can never
disturb the left block since an `"_l"`-suffixed key never equals an
`"_r"`-suffixed key. -/
theorem C8_joined_record_shape (lhs rhs : JsonObj) (projL projR : ColumnSelector) :
    joinRecords lhs projL rhs projR
      = insertAll (selPairs lhs projL "_l") ++ insertAll (selPairs rhs projR "_r") := by
  unfold joinRecords
  rw [appendFields_eq_foldl_selPairs, appendFields_eq_foldl_selPairs]
  have hbase : appendFields [] lhs projL "_l"
      = insertAll (selPairs lhs projL "_l") := by
    rw [appendFields_eq_foldl_selPairs]; rfl
  rw [appendFields_eq_foldl_selPairs] at hbase
  show (selPairs rhs projR "_r").foldl (fun rec kv => objSet rec kv.1 kv.2)
      ((selPairs lhs projL "_l").foldl (fun rec kv => objSet rec kv.1 kv.2) [])
    = _
  have hsplit := foldl_objSet_append (selPairs rhs projR "_r")
    ((selPairs lhs projL "_l").foldl (fun rec kv => objSet rec kv.1 kv.2) []) []
    ?_
  · rw [List.append_nil] at hsplit
    rw [hsplit]
    rfl
  · intro kb hkb kp hkp
    rcases mem_keys_foldl_objSet (selPairs lhs projL "_l") [] kb hkb with h | h
    · simp at h
    · obtain ⟨a, ha⟩ := selPairs_keys_suffixed lhs projL "_l" kb h
      obtain ⟨b, hb⟩ := selPairs_keys_suffixed rhs projR "_r" kp hkp
      rw [ha, hb]
      exact suffix_l_ne_suffix_r a b

/-- C7. Configuration-error behaviour: the merge raises a configuration
error iff `left_on` and `on` are both empty, or `right_on` and `on` are
both empty, or the resolved join-column lists differ in length; on such an
error rank 0 returns the error message as the result string with exit code
1, independently of the datasets (no join phase runs). -/
theorem C7_configuration_errors (a l r pl pr : ColumnSelector) (P : Nat)
    (lsh rsh lsh' rsh' : List (List JsonObj)) :
    ((∃ e, mergeValidate a l r = Except.error e) ↔ configErrorCond a l r)
    ∧ (configErrorCond a l r →
        ∃ e, mergeValidate a l r = Except.error e ∧
          mergeRun a l r pl pr P lsh rsh = some (1, some e) ∧
          mergeRun a l r pl pr P lsh' rsh' = some (1, some e)) := by
  have hrun : ∀ e, mergeValidate a l r = Except.error e →
      ∀ xsh ysh, mergeRun a l r pl pr P xsh ysh = some (1, some e) := by
    intro e he xsh ysh
    unfold mergeRun
    rw [he]
  by_cases h1 : (l.isEmpty && a.isEmpty) = true
  · have hc : configErrorCond a l r := by
      left
      rcases Bool.and_eq_true_iff.mp h1 with ⟨hl, ha⟩
      exact ⟨List.isEmpty_iff.mp hl, List.isEmpty_iff.mp ha⟩
    have he : mergeValidate a l r = Except.error "on-columns unspecified for left frame." := by
      unfold mergeValidate
      rw [if_pos h1]
    exact ⟨⟨fun _ => hc, fun _ => ⟨_, he⟩⟩,
      fun _ => ⟨_, he, hrun _ he lsh rsh, hrun _ he lsh' rsh'⟩⟩
  · by_cases h2 : (r.isEmpty && a.isEmpty) = true
    · have hc : configErrorCond a l r := by
        right; left
        rcases Bool.and_eq_true_iff.mp h2 with ⟨hr, ha⟩
        exact ⟨List.isEmpty_iff.mp hr, List.isEmpty_iff.mp ha⟩
      have he : mergeValidate a l r
          = Except.error "on-columns unspecified for right frame." := by
        unfold mergeValidate
        rw [if_neg h1, if_pos h2]
      exact ⟨⟨fun _ => hc, fun _ => ⟨_, he⟩⟩,
        fun _ => ⟨_, he, hrun _ he lsh rsh, hrun _ he lsh' rsh'⟩⟩
    · by_cases h3 : (if l.isEmpty then a else l).length = (if r.isEmpty then a else r).length
      · have hnc : ¬ configErrorCond a l r := by
          intro hc
          rcases hc with ⟨hl, ha⟩ | ⟨hr, ha⟩ | hlen
          · exact h1 (by simp [hl, ha])
          · exact h2 (by simp [hr, ha])
          · exact hlen h3
        have hok : mergeValidate a l r
            = Except.ok (if l.isEmpty then a else l, if r.isEmpty then a else r) := by
          unfold mergeValidate
          rw [if_neg h1, if_neg h2, if_neg (by simpa using h3)]
        refine ⟨⟨?_, fun hc => absurd hc hnc⟩, fun hc => absurd hc hnc⟩
        rintro ⟨e, he⟩
        rw [hok] at he
        exact absurd he (by simp)
      · have hc : configErrorCond a l r := Or.inr (Or.inr h3)
        have he : mergeValidate a l r
            = Except.error "Number of columns of Left_On and Right_on differ" := by
          unfold mergeValidate
          rw [if_neg h1, if_neg h2, if_pos (by simpa using h3)]
        exact ⟨⟨fun _ => hc, fun _ => ⟨_, he⟩⟩,
          fun _ => ⟨_, he, hrun _ he lsh rsh, hrun _ he lsh' rsh'⟩⟩

/-- Witness for C7: a length mismatch between the resolved lists is
reported by rank 0 with exit code 1, for two different datasets alike. -/
theorem C7_configuration_errors_witness :
    ∃ e, mergeValidate ["k"] [] ["k", "j"] = Except.error e ∧
      mergeRun ["k"] [] ["k", "j"] [] [] 1 [[]] [[]] = some (1, some e) ∧
      mergeRun ["k"] [] ["k", "j"] [] [] 2 [[], []] [[], []] = some (1, some e) := by
  exact (C7_configuration_errors ["k"] [] ["k", "j"] [] [] 1 [[]] [[]] [[], []] [[], []]).2
    (by decide)

theorem allPhase1Msgs_eq_map (P : Nat) (shards : List (List JsonObj)) (colsel : ColumnSelector) :
    allPhase1Msgs P shards colsel
      = (indexedRows shards).map
          (fun x => commJoinHash P x.1.1 (computeHash x.2 colsel x.1.1) x.1.2) := by
  unfold allPhase1Msgs indexedRows computeMergeInfo
  rw [List.map_flatMap]
  apply List.flatMap_congr
  intro rs _
  rw [List.map_map]
  rfl

/-- C3. Partitioning invariant: after phase 1 every index entry held on rank
`p` has `hash mod world_size = p`; `commJoinHash` routes an entry with hash
`h` to rank `h mod world_size` unchanged (stored directly exactly when that
destination is the sending rank, sent otherwise). -/
theorem C3_partitioning (P p rank h idx : Nat) (shards : List (List JsonObj))
    (colsel : ColumnSelector) :
    (∀ e ∈ joinIndexAt P shards colsel p, e.hash % P = p)
    ∧ commJoinHash P rank h idx = (h % P, ⟨h, rank, idx⟩)
    ∧ ((commJoinHash P rank h idx).1 = rank ↔ h % P = rank) := by
  refine ⟨?_, rfl, Iff.rfl⟩
  intro e he
  unfold joinIndexAt at he
  rcases List.mem_map.mp he with ⟨msg, hmsg, rfl⟩
  rcases List.mem_filter.mp hmsg with ⟨hmem, hdest⟩
  rw [allPhase1Msgs_eq_map] at hmem
  rcases List.mem_map.mp hmem with ⟨x, _, rfl⟩
  have : (commJoinHash P x.1.1 (computeHash x.2 colsel x.1.1) x.1.2).1
      = (commJoinHash P x.1.1 (computeHash x.2 colsel x.1.1) x.1.2).2.hash % P := rfl
  have hdest' : (commJoinHash P x.1.1 (computeHash x.2 colsel x.1.1) x.1.2).1 = p := by
    simpa using hdest
  rw [← this, hdest']

/-- Witness for C3: with world size 1 the sole index entry of a one-row
dataset lives on rank 0, and its hash modulo 1 is 0. -/
theorem C3_partitioning_witness :
    (⟨computeHash [("k", Json.int 1)] ["k"] 0, 0, 0⟩ : JoinRegistry).hash % 1 = 0
    ∧ commJoinHash 1 0 5 0 = (0, ⟨5, 0, 0⟩) := by
  refine ⟨?_, ?_⟩
  · exact (C3_partitioning 1 0 0 5 0 [[[("k", Json.int 1)]]] ["k"]).1 _ (by decide)
  · exact (C3_partitioning 1 0 0 5 0 [[[("k", Json.int 1)]]] ["k"]).2.1

theorem sorted_head_min {α : Type} {f : α → Nat} {x : α} {xs : List α}
    (h : List.Pairwise (fun a b => f a ≤ f b) (x :: xs)) : ∀ y ∈ x :: xs, f x ≤ f y := by
  intro y hy
  rcases List.mem_cons.mp hy with rfl | hy'
  · exact Nat.le_refl _
  · exact (List.pairwise_cons.mp h).1 y hy'

theorem takeWhile_eq_filter_of_min {α : Type} (f : α → Nat) (h0 : Nat) :
    ∀ (l : List α), (∀ x ∈ l, h0 ≤ f x) → List.Pairwise (fun a b => f a ≤ f b) l →
      l.takeWhile (fun x => h0 == f x) = l.filter (fun x => h0 == f x)
      ∧ l.dropWhile (fun x => h0 == f x) = l.filter (fun x => !(h0 == f x)) := by
  intro l
  induction l with
  | nil => intro _ _; exact ⟨rfl, rfl⟩
  | cons x xs ih =>
    intro hmin hsorted
    rcases List.pairwise_cons.mp hsorted with ⟨hx, hsorted'⟩
    by_cases hpos : (h0 == f x) = true
    · have ih' := ih (fun y hy => hmin y (List.mem_cons_of_mem x hy)) hsorted'
      refine ⟨?_, ?_⟩
      · rw [List.takeWhile_cons, List.filter_cons, if_pos hpos, if_pos hpos, ih'.1]
      · rw [List.dropWhile_cons, List.filter_cons, if_pos hpos]
        have hneg : (!(h0 == f x)) = false := by rw [hpos]; rfl
        rw [hneg]
        simp only [Bool.false_eq_true, if_false]
        exact ih'.2
    · have hne : h0 ≠ f x := fun h => hpos (by rw [h]; simp)
      have hlt : h0 < f x := Nat.lt_of_le_of_ne (hmin x (List.mem_cons_self x xs)) hne
      have hall : ∀ y ∈ xs, ¬ ((h0 == f y) = true) := by
        intro y hy hc
        have : h0 = f y := by simpa using hc
        have : f x ≤ f y := hx y hy
        omega
      have hposf : (h0 == f x) = false := Bool.eq_false_iff.mpr hpos
      refine ⟨?_, ?_⟩
      · rw [List.takeWhile_cons, if_neg hpos]
        symm
        rw [List.filter_eq_nil_iff]
        intro a ha
        rcases List.mem_cons.mp ha with rfl | ha'
        · exact hpos
        · exact hall a ha'
      · rw [List.dropWhile_cons, if_neg hpos, List.filter_cons]
        have : (!(h0 == f x)) = true := by rw [hposf]; rfl
        rw [this]
        simp only [if_true]
        congr 1
        symm
        rw [List.filter_eq_self]
        intro a ha
        have := hall a ha
        simp only [Bool.not_eq_true'] at this ⊢
        exact Bool.eq_false_iff.mpr this

theorem sortedHO_hashLe {l : List JoinRegistry} (h : SortedHO l) :
    List.Pairwise (fun a b : JoinRegistry => a.hash ≤ b.hash) l := by
  refine h.imp ?_
  intro a b hab
  rcases hab with h1 | ⟨h2, _⟩
  · exact Nat.le_of_lt h1
  · exact Nat.le_of_eq h2

theorem sortedHO_sublist {l l' : List JoinRegistry} (hs : List.Sublist l' l) (h : SortedHO l) :
    SortedHO l' := h.sublist hs

theorem ownerBundlesF_fuel_eq (lhs : List JoinLeftInfo) :
    ∀ (f1 : Nat) (l : List JoinRegistry) (f2 : Nat), l.length ≤ f1 → l.length ≤ f2 →
      ownerBundlesF lhs f1 l = ownerBundlesF lhs f2 l := by
  intro f1
  induction f1 with
  | zero =>
    intro l f2 h1 _
    have : l = [] := List.length_eq_zero.mp (Nat.le_zero.mp h1)
    subst this
    cases f2 <;> rfl
  | succ g1 ih =>
    intro l f2 h1 h2
    cases l with
    | nil => cases f2 <;> rfl
    | cons re rs =>
      cases f2 with
      | zero => exact absurd h2 (by simp)
      | succ g2 =>
        show (_ :: ownerBundlesF lhs g1 (rs.dropWhile (sameOwner re.owner_rank)))
          = (_ :: ownerBundlesF lhs g2 (rs.dropWhile (sameOwner re.owner_rank)))
        have hlen : (rs.dropWhile (sameOwner re.owner_rank)).length ≤ rs.length :=
          (List.dropWhile_sublist _).length_le
        have hb1 : (rs.dropWhile (sameOwner re.owner_rank)).length ≤ g1 := by
          simp only [List.length_cons] at h1; omega
        have hb2 : (rs.dropWhile (sameOwner re.owner_rank)).length ≤ g2 := by
          simp only [List.length_cons] at h2; omega
        rw [ih _ g2 hb1 hb2]

theorem ownerBundles_cons (lhs : List JoinLeftInfo) (re : JoinRegistry)
    (rs : List JoinRegistry) :
    ownerBundles lhs (re :: rs)
      = (re.owner_rank,
          ⟨packRightInfo (re :: rs.takeWhile (sameOwner re.owner_rank)), lhs⟩) ::
        ownerBundles lhs (rs.dropWhile (sameOwner re.owner_rank)) := by
  show ownerBundlesF lhs (rs.length + 1) (re :: rs) = _
  show (_ :: ownerBundlesF lhs rs.length (rs.dropWhile (sameOwner re.owner_rank))) = _
  unfold ownerBundles
  rw [ownerBundlesF_fuel_eq lhs rs.length (rs.dropWhile (sameOwner re.owner_rank)) _
    (List.dropWhile_sublist _).length_le (Nat.le_refl _)]

theorem groupByOwnerF_fuel_eq :
    ∀ (f1 : Nat) (l : List JoinLeftInfo) (f2 : Nat), l.length ≤ f1 → l.length ≤ f2 →
      groupByOwnerF f1 l = groupByOwnerF f2 l := by
  intro f1
  induction f1 with
  | zero =>
    intro l f2 h1 _
    have : l = [] := List.length_eq_zero.mp (Nat.le_zero.mp h1)
    subst this
    cases f2 <;> rfl
  | succ g1 ih =>
    intro l f2 h1 h2
    cases l with
    | nil => cases f2 <;> rfl
    | cons lr lrs =>
      cases f2 with
      | zero => exact absurd h2 (by simp)
      | succ g2 =>
        show (_ :: groupByOwnerF g1 (lrs.dropWhile (fun el => el.1 == lr.1)))
          = (_ :: groupByOwnerF g2 (lrs.dropWhile (fun el => el.1 == lr.1)))
        have hlen : (lrs.dropWhile (fun el => el.1 == lr.1)).length ≤ lrs.length :=
          (List.dropWhile_sublist _).length_le
        have hb1 : (lrs.dropWhile (fun el => el.1 == lr.1)).length ≤ g1 := by
          simp only [List.length_cons] at h1; omega
        have hb2 : (lrs.dropWhile (fun el => el.1 == lr.1)).length ≤ g2 := by
          simp only [List.length_cons] at h2; omega
        rw [ih _ g2 hb1 hb2]

theorem groupByOwner_cons (lr : JoinLeftInfo) (lrs : List JoinLeftInfo) :
    groupByOwner (lr :: lrs)
      = (lr.1, lr.2 :: (lrs.takeWhile (fun el => el.1 == lr.1)).map (fun el => el.2)) ::
        groupByOwner (lrs.dropWhile (fun el => el.1 == lr.1)) := by
  show groupByOwnerF (lrs.length + 1) (lr :: lrs) = _
  show (_ :: groupByOwnerF lrs.length (lrs.dropWhile (fun el => el.1 == lr.1))) = _
  unfold groupByOwner
  rw [groupByOwnerF_fuel_eq lrs.length (lrs.dropWhile (fun el => el.1 == lr.1)) _
    (List.dropWhile_sublist _).length_le (Nat.le_refl _)]
theorem matchLoopF_nil_left (f : Nat) (R : List JoinRegistry) : matchLoopF f [] R = [] := by
  cases f <;> rfl

theorem matchLoopF_nil_right (f : Nat) (L : List JoinRegistry) : matchLoopF f L [] = [] := by
  cases f <;> cases L <;> rfl

theorem matchLoopF_fuel_eq :
    ∀ (f1 : Nat) (L R : List JoinRegistry) (f2 : Nat),
      L.length + R.length ≤ f1 → L.length + R.length ≤ f2 →
      matchLoopF f1 L R = matchLoopF f2 L R := by
  intro f1
  induction f1 with
  | zero =>
    intro L R f2 h1 _
    have hL : L = [] := List.length_eq_zero.mp (by omega)
    subst hL
    rw [matchLoopF_nil_left, matchLoopF_nil_left]
  | succ g1 ih =>
    intro L R f2 h1 h2
    cases L with
    | nil => rw [matchLoopF_nil_left, matchLoopF_nil_left]
    | cons le ls =>
      cases R with
      | nil => rw [matchLoopF_nil_right, matchLoopF_nil_right]
      | cons re rs =>
        cases f2 with
        | zero => simp only [List.length_cons] at h2; omega
        | succ g2 =>
          have hls : (ls.dropWhile (sameHash le.hash)).length ≤ ls.length :=
            (List.dropWhile_sublist _).length_le
          have hrs : (rs.dropWhile (sameHash re.hash)).length ≤ rs.length :=
            (List.dropWhile_sublist _).length_le
          simp only [List.length_cons] at h1 h2
          by_cases hlt : le.hash < re.hash
          · simp only [matchLoopF, if_pos hlt]
            exact ih _ _ g2 (by simp only [List.length_cons]; omega)
              (by simp only [List.length_cons]; omega)
          · by_cases hgt : re.hash < le.hash
            · simp only [matchLoopF, if_neg hlt, if_pos hgt]
              exact ih _ _ g2 (by simp only [List.length_cons]; omega)
                (by simp only [List.length_cons]; omega)
            · simp only [matchLoopF, if_neg hlt, if_neg hgt]
              congr 1
              exact ih _ _ g2 (by omega) (by omega)

theorem matchLoop_nil_left (R : List JoinRegistry) : matchLoop [] R = [] :=
  matchLoopF_nil_left _ R

theorem matchLoop_nil_right (L : List JoinRegistry) : matchLoop L [] = [] :=
  matchLoopF_nil_right _ L

theorem matchLoop_cons (le re : JoinRegistry) (ls rs : List JoinRegistry) :
    matchLoop (le :: ls) (re :: rs)
      = if le.hash < re.hash then matchLoop (ls.dropWhile (sameHash le.hash)) (re :: rs)
        else if re.hash < le.hash then matchLoop (le :: ls) (rs.dropWhile (sameHash re.hash))
        else
          ownerBundles (packLeftInfo (le :: ls.takeWhile (sameHash le.hash)))
              (re :: rs.takeWhile (sameHash re.hash)) ++
            matchLoop (ls.dropWhile (sameHash le.hash)) (rs.dropWhile (sameHash re.hash)) := by
  have hls : (ls.dropWhile (sameHash le.hash)).length ≤ ls.length :=
    (List.dropWhile_sublist _).length_le
  have hrs : (rs.dropWhile (sameHash re.hash)).length ≤ rs.length :=
    (List.dropWhile_sublist _).length_le
  have hcalc : (le :: ls).length + (re :: rs).length = (ls.length + (rs.length + 1)) + 1 := by
    simp only [List.length_cons]
    omega
  unfold matchLoop
  rw [hcalc]
  show (if le.hash < re.hash then
      matchLoopF (ls.length + (rs.length + 1)) (ls.dropWhile (sameHash le.hash)) (re :: rs)
    else if re.hash < le.hash then
      matchLoopF (ls.length + (rs.length + 1)) (le :: ls) (rs.dropWhile (sameHash re.hash))
    else
      ownerBundles (packLeftInfo (le :: ls.takeWhile (sameHash le.hash)))
          (re :: rs.takeWhile (sameHash re.hash)) ++
        matchLoopF (ls.length + (rs.length + 1)) (ls.dropWhile (sameHash le.hash))
          (rs.dropWhile (sameHash re.hash))) = _
  by_cases hlt : le.hash < re.hash
  · rw [if_pos hlt, if_pos hlt]
    exact matchLoopF_fuel_eq _ _ _ _ (by simp only [List.length_cons]; omega)
      (by simp only [List.length_cons]; omega)
  · rw [if_neg hlt, if_neg hlt]
    by_cases hgt : re.hash < le.hash
    · rw [if_pos hgt, if_pos hgt]
      exact matchLoopF_fuel_eq _ _ _ _ (by simp only [List.length_cons]; omega)
        (by simp only [List.length_cons]; omega)
    · rw [if_neg hgt, if_neg hgt]
      congr 1
      exact matchLoopF_fuel_eq _ _ _ _ (by omega) (by omega)

theorem mem_dedupFirst {a : Nat} : ∀ {l : List Nat}, a ∈ dedupFirst l ↔ a ∈ l := by
  intro l
  induction l with
  | nil => simp [dedupFirst]
  | cons k ks ih =>
    simp only [dedupFirst, List.mem_cons, List.mem_filter]
    constructor
    · rintro (rfl | ⟨hmem, _⟩)
      · exact Or.inl rfl
      · exact Or.inr (ih.mp hmem)
    · rintro (rfl | hks)
      · exact Or.inl rfl
      · by_cases hak : a = k
        · exact Or.inl hak
        · refine Or.inr ⟨ih.mpr hks, ?_⟩
          simp [Ne.symm hak]

theorem nodup_dedupFirst : ∀ (l : List Nat), (dedupFirst l).Nodup := by
  intro l
  induction l with
  | nil => exact List.nodup_nil
  | cons k ks ih =>
    refine List.nodup_cons.mpr ⟨?_, ih.filter _⟩
    intro hmem
    have := (List.mem_filter.mp hmem).2
    simp at this

theorem dedupFirst_filter_comm (p : Nat → Bool) :
    ∀ (l : List Nat), dedupFirst (l.filter p) = (dedupFirst l).filter p := by
  intro l
  induction l with
  | nil => rfl
  | cons k ks ih =>
    by_cases hp : p k = true
    · simp only [List.filter_cons, hp, if_true, dedupFirst, ih]
      rw [List.filter_comm]
    · have hp' : p k = false := Bool.eq_false_iff.mpr hp
      simp only [List.filter_cons, hp', Bool.false_eq_true, if_false, dedupFirst, ih]
      rw [List.filter_comm]
      symm
      apply List.filter_eq_self.mpr
      intro a ha
      have hpa := (List.mem_filter.mp ha).2
      have hak : a ≠ k := by
        intro h
        rw [h, hp'] at hpa
        exact absurd hpa (by simp)
      simp [Ne.symm hak]

theorem dedupFirst_all_block (c : Nat) :
    ∀ (xs t : List Nat), xs ≠ [] → (∀ x ∈ xs, x = c) →
      dedupFirst (xs ++ t) = c :: (dedupFirst t).filter (fun k' => !(c == k')) := by
  intro xs
  induction xs with
  | nil => intro t h _; exact absurd rfl h
  | cons c' xs' ih =>
    intro t _ hall
    have hc : c' = c := hall c' (by simp)
    cases xs' with
    | nil =>
      subst hc
      simp [dedupFirst]
    | cons d ds =>
      have hne : (d :: ds) ≠ ([] : List Nat) := by simp
      have hall' : ∀ x ∈ d :: ds, x = c := fun x hx => hall x (by simp [hx])
      have hstep : dedupFirst ((c' :: (d :: ds)) ++ t)
          = c' :: (dedupFirst ((d :: ds) ++ t)).filter (fun k' => !(c' == k')) := rfl
      rw [hstep, ih t hne hall', hc]
      congr 1
      rw [List.filter_cons]
      have hcc : (!(c == c)) = false := by simp
      rw [hcc]
      simp only [Bool.false_eq_true, if_false]
      rw [List.filter_filter]
      apply List.filter_congr
      intro a _
      rw [Bool.and_self]

theorem ownerBundles_closed (lhs : List JoinLeftInfo) :
    ∀ (n : Nat) (run : List JoinRegistry), run.length ≤ n →
      List.Pairwise (fun a b => a.owner_rank ≤ b.owner_rank) run →
      ownerBundles lhs run
        = (dedupFirst (run.map (fun e => e.owner_rank))).map (fun o =>
            (o, ⟨packRightInfo (run.filter (sameOwner o)), lhs⟩)) := by
  intro n
  induction n with
  | zero =>
    intro run hlen _
    have : run = [] := List.length_eq_zero.mp (Nat.le_zero.mp hlen)
    subst this
    rfl
  | succ g ih =>
    intro run hlen hpair
    cases run with
    | nil => rfl
    | cons re rs =>
      rcases List.pairwise_cons.mp hpair with ⟨hminrs, hpair'⟩
      have hrunlem := takeWhile_eq_filter_of_min (fun e => e.owner_rank) re.owner_rank rs
        hminrs hpair'
      have htake : rs.takeWhile (sameOwner re.owner_rank)
          = rs.filter (sameOwner re.owner_rank) := hrunlem.1
      have hdrop : rs.dropWhile (sameOwner re.owner_rank)
          = rs.filter (fun x => !(sameOwner re.owner_rank x)) := hrunlem.2
      rw [ownerBundles_cons, htake, hdrop]
      have hrest : (rs.filter (fun x => !(sameOwner re.owner_rank x))).length ≤ g := by
        have h1 : (rs.filter (fun x => !(sameOwner re.owner_rank x))).length ≤ rs.length :=
          (List.filter_sublist _).length_le
        simp only [List.length_cons] at hlen
        omega
      have hpairrest : List.Pairwise (fun a b => a.owner_rank ≤ b.owner_rank)
          (rs.filter (fun x => !(sameOwner re.owner_rank x))) :=
        hpair'.sublist (List.filter_sublist _)
      rw [ih _ hrest hpairrest]
      have hmapkeys : (rs.filter (fun x => !(sameOwner re.owner_rank x))).map
            (fun e => e.owner_rank)
          = (rs.map (fun e => e.owner_rank)).filter (fun o => !(re.owner_rank == o)) := by
        rw [List.filter_map]
        rfl
      rw [hmapkeys, dedupFirst_filter_comm]
      have hhead : (re :: rs).map (fun e => e.owner_rank)
          = re.owner_rank :: rs.map (fun e => e.owner_rank) := rfl
      rw [hhead]
      have hdedup : dedupFirst (re.owner_rank :: rs.map (fun e => e.owner_rank))
          = re.owner_rank :: (dedupFirst (rs.map (fun e => e.owner_rank))).filter
              (fun k' => !(re.owner_rank == k')) := rfl
      rw [hdedup, List.map_cons]
      congr 1
      · have hfilt : (re :: rs).filter (sameOwner re.owner_rank)
            = re :: rs.filter (sameOwner re.owner_rank) := by
          rw [List.filter_cons, if_pos (by simp [sameOwner])]
        rw [hfilt]
      · apply List.map_congr_left
        intro o hon
        have hone : re.owner_rank ≠ o := by
          have := (List.mem_filter.mp hon).2
          intro h
          rw [h] at this
          simp at this
        have hnotpos : ¬ (sameOwner o re = true) := by
          simp only [sameOwner, beq_iff_eq]
          exact fun h => hone h.symm
        have hfo : (re :: rs).filter (sameOwner o) = rs.filter (sameOwner o) := by
          rw [List.filter_cons, if_neg hnotpos]
        have hfo2 : (rs.filter (fun x => !(sameOwner re.owner_rank x))).filter (sameOwner o)
            = rs.filter (sameOwner o) := by
          rw [List.filter_filter]
          apply List.filter_congr
          intro a _
          by_cases hoa : (sameOwner o a) = true
          · have : o = a.owner_rank := by simpa [sameOwner] using hoa
            have hna : (!(sameOwner re.owner_rank a)) = true := by
              simp only [sameOwner, Bool.not_eq_true', beq_eq_false_iff_ne, ne_eq]
              rw [← this]
              exact fun h => hone h
            rw [hoa, hna]
            rfl
          · have hoa' : (sameOwner o a) = false := Bool.eq_false_iff.mpr hoa
            rw [hoa']
            rfl
        rw [hfo, hfo2]

theorem filter_sameHash_cons_ne {h : Nat} {x : JoinRegistry} {xs : List JoinRegistry}
    (hne : h ≠ x.hash) :
    (x :: xs).filter (sameHash h) = xs.filter (sameHash h) := by
  rw [List.filter_cons]
  have : (sameHash h x) = false := by simp [sameHash, hne]
  rw [this]
  simp

theorem filter_sameHash_cons_eq {h : Nat} {x : JoinRegistry} {xs : List JoinRegistry}
    (heq : h = x.hash) :
    (x :: xs).filter (sameHash h) = x :: xs.filter (sameHash h) := by
  rw [List.filter_cons]
  have : (sameHash h x) = true := by simp [sameHash, heq]
  rw [this]
  simp

theorem filter_sameHash_of_restNe {h h0 : Nat} (hne : h ≠ h0) (l : List JoinRegistry) :
    (l.filter (fun e => !(sameHash h0 e))).filter (sameHash h) = l.filter (sameHash h) := by
  rw [List.filter_filter]
  apply List.filter_congr
  intro a _
  by_cases hha : (sameHash h a) = true
  · have ha : h = a.hash := by simpa [sameHash] using hha
    have hnn : (!(sameHash h0 a)) = true := by
      simp only [sameHash, Bool.not_eq_true', beq_eq_false_iff_ne, ne_eq]
      intro hc
      exact hne (ha.trans hc.symm)
    rw [hha, hnn]
    rfl
  · rw [Bool.eq_false_iff.mpr hha]
    rfl

theorem mem_hashes_rest_iff {h' : Nat} {re : JoinRegistry} {rs : List JoinRegistry}
    (hne : h' ≠ re.hash) :
    (h' ∈ (re :: rs).map (fun e => e.hash)
      ↔ h' ∈ (rs.filter (fun e => !(sameHash re.hash e))).map (fun e => e.hash)) := by
  simp only [List.map_cons, List.mem_cons, List.mem_map, List.mem_filter]
  constructor
  · rintro (h | ⟨e, he, rfl⟩)
    · exact absurd h hne
    · refine ⟨e, ⟨he, ?_⟩, rfl⟩
      simp only [sameHash, Bool.not_eq_true', beq_eq_false_iff_ne, ne_eq]
      exact fun hc => hne hc.symm
  · rintro ⟨e, ⟨he, _⟩, hh⟩
    exact Or.inr ⟨e, he, hh⟩

theorem matchLoop_closed :
    ∀ (n : Nat) (L R : List JoinRegistry), L.length + R.length ≤ n →
      SortedHO L → SortedHO R → matchLoop L R = candidateSpec L R := by
  intro n
  induction n with
  | zero =>
    intro L R hlen _ _
    have hL0 : L = [] := List.length_eq_zero.mp (by omega)
    subst hL0
    rw [matchLoop_nil_left]
    rfl
  | succ g ih =>
    intro L R hlen hL hR
    cases L with
    | nil => rw [matchLoop_nil_left]; rfl
    | cons le ls =>
      cases R with
      | nil =>
        rw [matchLoop_nil_right]
        unfold candidateSpec
        have hz : ((dedupFirst ((le :: ls).map (fun e => e.hash))).filter
            (fun h => h ∈ ([] : List JoinRegistry).map (fun e => e.hash))) = [] := by
          apply List.filter_eq_nil_iff.mpr
          intro a _
          simp
        rw [hz]
        rfl
      | cons re rs =>
        have hsortL' : SortedHO ls := (List.pairwise_cons.mp hL).2
        have hsortR' : SortedHO rs := (List.pairwise_cons.mp hR).2
        have hminLs : ∀ y ∈ ls, le.hash ≤ y.hash :=
          (List.pairwise_cons.mp (sortedHO_hashLe hL)).1
        have hminRs : ∀ y ∈ rs, re.hash ≤ y.hash :=
          (List.pairwise_cons.mp (sortedHO_hashLe hR)).1
        have hrunL := takeWhile_eq_filter_of_min (fun e => e.hash) le.hash ls hminLs
          (sortedHO_hashLe hsortL')
        have hrunR := takeWhile_eq_filter_of_min (fun e => e.hash) re.hash rs hminRs
          (sortedHO_hashLe hsortR')
        have htakeL : ls.takeWhile (sameHash le.hash) = ls.filter (sameHash le.hash) :=
          hrunL.1
        have hdropL : ls.dropWhile (sameHash le.hash)
            = ls.filter (fun x => !(sameHash le.hash x)) := hrunL.2
        have htakeR : rs.takeWhile (sameHash re.hash) = rs.filter (sameHash re.hash) :=
          hrunR.1
        have hdropR : rs.dropWhile (sameHash re.hash)
            = rs.filter (fun x => !(sameHash re.hash x)) := hrunR.2
        have hsLrest : SortedHO (ls.filter (fun x => !(sameHash le.hash x))) :=
          hsortL'.sublist (List.filter_sublist _)
        have hsRrest : SortedHO (rs.filter (fun x => !(sameHash re.hash x))) :=
          hsortR'.sublist (List.filter_sublist _)
        have hlenL : (ls.filter (fun x => !(sameHash le.hash x))).length ≤ ls.length :=
          (List.filter_sublist _).length_le
        have hlenR : (rs.filter (fun x => !(sameHash re.hash x))).length ≤ rs.length :=
          (List.filter_sublist _).length_le
        have hKL : dedupFirst ((le :: ls).map (fun e => e.hash))
            = le.hash :: (dedupFirst (ls.map (fun e => e.hash))).filter
                (fun k' => !(le.hash == k')) := rfl
        have hKLrest : dedupFirst (((ls.filter (fun x => !(sameHash le.hash x)))).map
              (fun e => e.hash))
            = (dedupFirst (ls.map (fun e => e.hash))).filter (fun k' => !(le.hash == k')) := by
          have hmap : (ls.filter (fun x => !(sameHash le.hash x))).map (fun e => e.hash)
              = (ls.map (fun e => e.hash)).filter (fun k => !(le.hash == k)) := by
            rw [List.filter_map]
            rfl
          rw [hmap, dedupFirst_filter_comm]
        have hmemLrest : ∀ k ∈ dedupFirst (((ls.filter (fun x => !(sameHash le.hash x)))).map
              (fun e => e.hash)), k ≠ le.hash := by
          intro k hk
          have := mem_dedupFirst.mp hk
          rcases List.mem_map.mp this with ⟨e, he, rfl⟩
          have := (List.mem_filter.mp he).2
          simp only [sameHash, Bool.not_eq_true', beq_eq_false_iff_ne, ne_eq] at this
          exact fun hc => this hc.symm
        simp only [List.length_cons] at hlen
        by_cases hlt : le.hash < re.hash
        · rw [matchLoop_cons, if_pos hlt, hdropL]
          rw [ih _ _ (by simp only [List.length_cons]; omega) hsLrest hR]
          unfold candidateSpec
          have hhlne : le.hash ∉ (re :: rs).map (fun e => e.hash) := by
            intro hmem
            rcases List.mem_map.mp hmem with ⟨e, he, hh⟩
            have : re.hash ≤ e.hash := by
              rcases List.mem_cons.mp he with rfl | he'
              · exact Nat.le_refl _
              · exact hminRs e he'
            omega
          have hCH : (dedupFirst ((le :: ls).map (fun e => e.hash))).filter
                (fun h => h ∈ (re :: rs).map (fun e => e.hash))
              = (dedupFirst (((ls.filter (fun x => !(sameHash le.hash x)))).map
                  (fun e => e.hash))).filter
                  (fun h => h ∈ (re :: rs).map (fun e => e.hash)) := by
            rw [hKL, hKLrest, List.filter_cons]
            have hdf : (decide (le.hash ∈ (re :: rs).map (fun e => e.hash))) = false := by
              simp only [decide_eq_false_iff_not]
              exact hhlne
            rw [hdf]
            simp only [Bool.false_eq_true, if_false]
          rw [hCH]
          apply List.flatMap_congr
          intro h hmemh
          have hhne : h ≠ le.hash :=
            hmemLrest h (List.mem_filter.mp hmemh).1
          have h1 : (le :: ls).filter (sameHash h) = ls.filter (sameHash h) :=
            filter_sameHash_cons_ne (fun hc => hhne (by rw [hc]))
          have h2 : (ls.filter (fun x => !(sameHash le.hash x))).filter (sameHash h)
              = ls.filter (sameHash h) :=
            filter_sameHash_of_restNe hhne ls
          rw [h1, h2]
        · by_cases hgt : re.hash < le.hash
          · rw [matchLoop_cons, if_neg hlt, if_pos hgt, hdropR]
            rw [ih _ _ (by simp only [List.length_cons]; omega) hL hsRrest]
            unfold candidateSpec
            have hCH : (dedupFirst ((le :: ls).map (fun e => e.hash))).filter
                  (fun h => h ∈ ((rs.filter (fun x => !(sameHash re.hash x)))).map
                    (fun e => e.hash))
                = (dedupFirst ((le :: ls).map (fun e => e.hash))).filter
                  (fun h => h ∈ (re :: rs).map (fun e => e.hash)) := by
              apply List.filter_congr
              intro k hk
              have hkg : re.hash < k := by
                have := mem_dedupFirst.mp hk
                rcases List.mem_map.mp this with ⟨e, he, rfl⟩
                have : le.hash ≤ e.hash := by
                  rcases List.mem_cons.mp he with rfl | he'
                  · exact Nat.le_refl _
                  · exact hminLs e he'
                omega
              have hkne : k ≠ re.hash := by omega
              rw [decide_eq_decide]
              exact (mem_hashes_rest_iff hkne).symm
            rw [hCH]
            apply List.flatMap_congr
            intro h hmemh
            have hhne : h ≠ re.hash := by
              have hmemk := (List.mem_filter.mp hmemh).1
              have := mem_dedupFirst.mp hmemk
              rcases List.mem_map.mp this with ⟨e, he, rfl⟩
              have : le.hash ≤ e.hash := by
                rcases List.mem_cons.mp he with rfl | he'
                · exact Nat.le_refl _
                · exact hminLs e he'
              omega
            have hRfh : (re :: rs).filter (sameHash h)
                = (rs.filter (fun x => !(sameHash re.hash x))).filter (sameHash h) := by
              rw [filter_sameHash_cons_ne (fun hc => hhne (by rw [hc])),
                filter_sameHash_of_restNe hhne]
            rw [hRfh]
          · have heq : le.hash = re.hash := by omega
            rw [matchLoop_cons, if_neg hlt, if_neg hgt, htakeL, htakeR, hdropL, hdropR]
            rw [ih _ _ (by omega) hsLrest hsRrest]
            have hRRUN : re :: rs.filter (sameHash re.hash)
                = (re :: rs).filter (sameHash re.hash) :=
              (filter_sameHash_cons_eq rfl).symm
            have hLRUN : le :: ls.filter (sameHash le.hash)
                = (le :: ls).filter (sameHash le.hash) :=
              (filter_sameHash_cons_eq rfl).symm
            have hRRUNhashes : ∀ x ∈ (re :: rs).filter (sameHash re.hash),
                x.hash = re.hash := by
              intro x hx
              rcases List.mem_filter.mp hx with ⟨_, hpx⟩
              have : re.hash = x.hash := by simpa [sameHash] using hpx
              omega
            have hRRUNsort : List.Pairwise (fun a b => a.owner_rank ≤ b.owner_rank)
                ((re :: rs).filter (sameHash re.hash)) := by
              have hsub : SortedHO ((re :: rs).filter (sameHash re.hash)) :=
                hR.sublist (List.filter_sublist _)
              refine hsub.imp_of_mem ?_
              intro a b ha hb hab
              rcases hab with h1 | ⟨_, h2⟩
              · have := hRRUNhashes a ha
                have := hRRUNhashes b hb
                omega
              · exact h2
            rw [hRRUN, ownerBundles_closed _ _ _ (Nat.le_refl _) hRRUNsort]
            unfold candidateSpec
            have hheadmem : le.hash ∈ (re :: rs).map (fun e => e.hash) := by
              rw [heq, List.map_cons]
              exact List.mem_cons_self _ _
            have hCH : (dedupFirst ((le :: ls).map (fun e => e.hash))).filter
                  (fun h => h ∈ (re :: rs).map (fun e => e.hash))
                = le.hash :: ((dedupFirst (((ls.filter (fun x => !(sameHash le.hash x)))).map
                    (fun e => e.hash))).filter
                    (fun h => h ∈ ((rs.filter (fun x => !(sameHash re.hash x))).map
                      (fun e => e.hash)))) := by
              rw [hKL, List.filter_cons]
              have hdec : (decide (le.hash ∈ (re :: rs).map (fun e => e.hash))) = true := by
                simp only [decide_eq_true_eq]
                exact hheadmem
              rw [hdec]
              simp only [if_true]
              congr 1
              rw [← hKLrest]
              apply List.filter_congr
              intro k hk
              have hkne : k ≠ re.hash := by
                have := hmemLrest k hk
                rw [← heq]
                exact this
              rw [decide_eq_decide]
              exact mem_hashes_rest_iff hkne
            rw [hCH, List.flatMap_cons]
            congr 1
            · rw [heq, ← filter_sameHash_cons_eq heq.symm]
            · apply List.flatMap_congr
              intro h hmemh
              have hmemk := (List.mem_filter.mp hmemh).1
              have hhne : h ≠ le.hash := hmemLrest h hmemk
              have hhner : h ≠ re.hash := by rw [← heq]; exact hhne
              have h1 : (le :: ls).filter (sameHash h) = ls.filter (sameHash h) :=
                filter_sameHash_cons_ne (fun hc => hhne (by rw [hc]))
              have h2 : (ls.filter (fun x => !(sameHash le.hash x))).filter (sameHash h)
                  = ls.filter (sameHash h) :=
                filter_sameHash_of_restNe hhne ls
              have h3 : (re :: rs).filter (sameHash h) = rs.filter (sameHash h) :=
                filter_sameHash_cons_ne (fun hc => hhner (by rw [hc]))
              have h4 : (rs.filter (fun x => !(sameHash re.hash x))).filter (sameHash h)
                  = rs.filter (sameHash h) :=
                filter_sameHash_of_restNe hhner rs
              rw [h1, h2, h3, h4]

/-- C4. CandidateMatcher protocol: on indices sorted by (hash, owner_rank),
the phase-2 walk emits, for every hash occurring on both sides, exactly one
candidate bundle per distinct owner rank of the right equal-hash run — sent
to that owner, carrying that owner's right-side row indices and the
(owner, index) pairs of the entire left equal-hash run — and nothing for
hashes occurring on one side only.  This is the closed form
`candidateSpec`. -/
theorem C4_candidate_matcher_protocol (L R : List JoinRegistry)
    (hL : SortedHO L) (hR : SortedHO R) :
    matchLoop L R = candidateSpec L R :=
  matchLoop_closed (L.length + R.length) L R (Nat.le_refl _) hL hR

/-- Witness for C4 at concrete sorted indices: hash 5 is shared (right run
has owners 0 and 1, so two bundles), hash 7 is left-only and hash 6
right-only (no bundles). -/
theorem C4_candidate_matcher_protocol_witness :
    matchLoop [⟨5, 0, 1⟩, ⟨5, 1, 2⟩, ⟨7, 0, 3⟩] [⟨5, 0, 4⟩, ⟨5, 0, 5⟩, ⟨5, 1, 6⟩, ⟨6, 2, 9⟩]
      = candidateSpec [⟨5, 0, 1⟩, ⟨5, 1, 2⟩, ⟨7, 0, 3⟩]
          [⟨5, 0, 4⟩, ⟨5, 0, 5⟩, ⟨5, 1, 6⟩, ⟨6, 2, 9⟩]
    ∧ matchLoop [⟨5, 0, 1⟩, ⟨5, 1, 2⟩, ⟨7, 0, 3⟩] [⟨5, 0, 4⟩, ⟨5, 0, 5⟩, ⟨5, 1, 6⟩, ⟨6, 2, 9⟩]
      = [(0, ⟨[4, 5], [(0, 1), (1, 2)]⟩), (1, ⟨[6], [(0, 1), (1, 2)]⟩)] := by
  refine ⟨C4_candidate_matcher_protocol _ _ (by decide) (by decide), by rfl⟩

theorem ownerBundlesF_mem (lhs : List JoinLeftInfo) :
    ∀ (fuel : Nat) (run : List JoinRegistry) (d : Nat) (b : MergeCandidates),
      (d, b) ∈ ownerBundlesF lhs fuel run → b.local_data ≠ [] ∧ b.remote_data = lhs := by
  intro fuel
  induction fuel with
  | zero =>
    intro run d b h
    cases run with
    | nil => simp [ownerBundlesF] at h
    | cons re rs => simp [ownerBundlesF] at h
  | succ g ih =>
    intro run d b h
    cases run with
    | nil => simp [ownerBundlesF] at h
    | cons re rs =>
      rcases List.mem_cons.mp h with heq | hmem
      · rcases (Prod.mk.injEq _ _ _ _).mp heq with ⟨_, hb2⟩
        subst hb2
        exact ⟨by simp [packRightInfo], rfl⟩
      · exact ih _ d b hmem

theorem matchLoopF_mem :
    ∀ (fuel : Nat) (L R : List JoinRegistry) (d : Nat) (b : MergeCandidates),
      (d, b) ∈ matchLoopF fuel L R → b.local_data ≠ [] ∧ b.remote_data ≠ [] := by
  intro fuel
  induction fuel with
  | zero =>
    intro L R d b h
    cases L with
    | nil => simp [matchLoopF] at h
    | cons le ls =>
      cases R with
      | nil => simp [matchLoopF] at h
      | cons re rs => simp [matchLoopF] at h
  | succ g ih =>
    intro L R d b h
    cases L with
    | nil => simp [matchLoopF] at h
    | cons le ls =>
      cases R with
      | nil => simp [matchLoopF] at h
      | cons re rs =>
        simp only [matchLoopF] at h
        by_cases hlt : le.hash < re.hash
        · rw [if_pos hlt] at h
          exact ih _ _ d b h
        · rw [if_neg hlt] at h
          by_cases hgt : re.hash < le.hash
          · rw [if_pos hgt] at h
            exact ih _ _ d b h
          · rw [if_neg hgt] at h
            rcases List.mem_append.mp h with hob | hml
            · have hb := ownerBundlesF_mem _ _ _ d b hob
              refine ⟨hb.1, ?_⟩
              rw [hb.2]
              simp [packLeftInfo]
            · exact ih _ _ d b hml

/-- C10. Non-empty bundle invariant: every candidate bundle the phase-2
walk emits (stored locally or sent, the contents are identical) has
non-empty right indices and non-empty left references; consequently the
phase-3 assertion on the left reference list never fails for such a bundle,
and the bundle causes at least one payload message. -/
theorem C10_nonempty_bundles (L R : List JoinRegistry) (m : MergeIn) (o : Nat)
    (d : Nat) (b : MergeCandidates) (hmem : (d, b) ∈ matchLoop L R) :
    b.local_data ≠ [] ∧ b.remote_data ≠ []
    ∧ ∃ msgs, shipCandidate m o b = some msgs ∧ msgs ≠ [] := by
  have hb := matchLoopF_mem _ L R d b hmem
  refine ⟨hb.1, hb.2, ?_⟩
  unfold shipCandidate
  rw [if_neg (by simp only [List.isEmpty_iff]; exact hb.2)]
  refine ⟨_, rfl, ?_⟩
  cases hrd : b.remote_data with
  | nil => exact absurd hrd hb.2
  | cons lr lrs =>
    rw [groupByOwner_cons]
    simp

/-- Witness for C10: a concrete bundle emitted by the matcher is non-empty
on both sides and ships one payload message. -/
theorem C10_nonempty_bundles_witness :
    (⟨[4], [(0, 1)]⟩ : MergeCandidates).local_data ≠ []
    ∧ (⟨[4], [(0, 1)]⟩ : MergeCandidates).remote_data ≠ []
    ∧ ∃ msgs, shipCandidate ⟨1, [[]], [[]], ["k"], ["k"], [], []⟩ 0 ⟨[4], [(0, 1)]⟩
        = some msgs ∧ msgs ≠ [] :=
  C10_nonempty_bundles [⟨5, 0, 1⟩] [⟨5, 0, 4⟩] ⟨1, [[]], [[]], ["k"], ["k"], [], []⟩ 0
    0 ⟨[4], [(0, 1)]⟩ (by decide)

theorem flatMap_nil_const {α β : Type} (keys : List α) :
    keys.flatMap (fun _ => ([] : List β)) = [] := by
  induction keys with
  | nil => rfl
  | cons k ks ih => simp only [List.flatMap_cons, List.nil_append]; exact ih

theorem flatMap_perm_congr {α β : Type} {l : List α} {f g : α → List β}
    (h : ∀ a ∈ l, (f a).Perm (g a)) : (l.flatMap f).Perm (l.flatMap g) := by
  induction l with
  | nil => exact List.Perm.refl _
  | cons a l ih =>
    simp only [List.flatMap_cons]
    exact (h a (by simp)).append (ih (fun a ha => h a (by simp [ha])))

theorem flatMap_append_perm {α β : Type} (B : List α) (f g : α → List β) :
    (B.flatMap f ++ B.flatMap g).Perm (B.flatMap (fun b => f b ++ g b)) := by
  induction B with
  | nil => exact List.Perm.refl _
  | cons b B ih =>
    simp only [List.flatMap_cons]
    have h1 : ((f b ++ B.flatMap f) ++ (g b ++ B.flatMap g))
        = f b ++ (B.flatMap f ++ (g b ++ B.flatMap g)) := by simp [List.append_assoc]
    have h2 : (B.flatMap f ++ (g b ++ B.flatMap g)).Perm
        (g b ++ (B.flatMap f ++ B.flatMap g)) := List.perm_append_comm_assoc _ _ _
    rw [h1]
    refine List.Perm.trans (List.Perm.append_left (f b) h2) ?_
    have h3 : f b ++ (g b ++ (B.flatMap f ++ B.flatMap g))
        = (f b ++ g b) ++ (B.flatMap f ++ B.flatMap g) := by simp [List.append_assoc]
    rw [h3]
    exact List.Perm.append_left _ ih

theorem swap_flatMap_perm {α β γ : Type} (A : List α) (B : List β) (f : α → β → List γ) :
    (A.flatMap (fun a => B.flatMap (fun b => f a b))).Perm
      (B.flatMap (fun b => A.flatMap (fun a => f a b))) := by
  induction A with
  | nil =>
    have h1 : ∀ b ∈ B, (([] : List α).flatMap fun a => f a b) = [] := fun _ _ => rfl
    rw [show (B.flatMap fun b => ([] : List α).flatMap fun a => f a b)
        = B.flatMap (fun _ => []) from List.flatMap_congr h1, flatMap_nil_const]
    exact List.Perm.refl _
  | cons a A ih =>
    simp only [List.flatMap_cons]
    refine List.Perm.trans (List.Perm.append_left _ ih) ?_
    exact flatMap_append_perm B _ _

theorem flatMap_ite_cons_perm {α K : Type} [DecidableEq K] :
    ∀ (keys : List K), keys.Nodup → ∀ (c : K) (x : α) (g : K → List α), c ∈ keys →
      (keys.flatMap (fun k => if c = k then x :: g k else g k)).Perm
        (x :: keys.flatMap g) := by
  intro keys
  induction keys with
  | nil => intro _ c x g h; simp at h
  | cons k ks ih =>
    intro hnd c x g hc
    rcases List.nodup_cons.mp hnd with ⟨hkn, hnd'⟩
    simp only [List.flatMap_cons]
    by_cases hck : c = k
    · rw [if_pos hck]
      have hne : ∀ k' ∈ ks, ¬ (c = k') := by
        intro k' hk' h
        apply hkn
        rw [hck] at h
        rw [h]
        exact hk'
      have hrest : ks.flatMap (fun k' => if c = k' then x :: g k' else g k') = ks.flatMap g := by
        apply List.flatMap_congr
        intro k' hk'
        rw [if_neg (hne k' hk')]
      rw [hrest]
      exact List.Perm.refl _
    · rw [if_neg hck]
      have hc' : c ∈ ks := by
        rcases List.mem_cons.mp hc with h | h
        · exact absurd h hck
        · exact h
      refine List.Perm.trans (List.Perm.append_left _ (ih hnd' c x g hc')) ?_
      exact List.perm_middle

theorem partition_flatMap_perm {α K : Type} [DecidableEq K] (f : α → K) :
    ∀ (l : List α) (keys : List K), keys.Nodup → (∀ x ∈ l, f x ∈ keys) →
      (keys.flatMap (fun k => l.filter (fun x => f x = k))).Perm l := by
  intro l
  induction l with
  | nil =>
    intro keys _ _
    have h1 : ∀ k ∈ keys, ([] : List α).filter (fun x => f x = k) = [] := fun _ _ => rfl
    rw [List.flatMap_congr h1, flatMap_nil_const]
  | cons x xs ih =>
    intro keys hnd hmem
    have hstep : keys.flatMap (fun k => (x :: xs).filter (fun x' => f x' = k))
        = keys.flatMap (fun k =>
            if f x = k then x :: xs.filter (fun x' => f x' = k)
            else xs.filter (fun x' => f x' = k)) := by
      apply List.flatMap_congr
      intro k _
      rw [List.filter_cons]
      by_cases hfx : f x = k
      · rw [if_pos (by simp [hfx]), if_pos hfx]
      · rw [if_neg (by simp [hfx]), if_neg hfx]
    rw [hstep]
    refine List.Perm.trans
      (flatMap_ite_cons_perm keys hnd (f x) x _ (hmem x (by simp))) ?_
    exact (ih keys hnd (fun y hy => hmem y (by simp [hy]))).cons x

theorem flatMap_filter_eq_ite {α β : Type} (l : List α) (p : α → Bool) (f : α → List β) :
    (l.filter p).flatMap f = l.flatMap (fun a => if p a then f a else []) := by
  induction l with
  | nil => rfl
  | cons a l ih =>
    rw [List.filter_cons]
    by_cases hp : p a = true
    · rw [if_pos hp, List.flatMap_cons, List.flatMap_cons, if_pos hp, ih]
    · have hp' : p a = false := Bool.eq_false_iff.mpr hp
      rw [hp']
      simp only [Bool.false_eq_true, if_false]
      rw [List.flatMap_cons, hp']
      simp only [Bool.false_eq_true, if_false, List.nil_append]
      exact ih

theorem flatMap_filter_of_empty {α β : Type} (keys : List α) (p : α → Bool)
    (f : α → List β) (h : ∀ k ∈ keys, p k = false → f k = []) :
    keys.flatMap f = (keys.filter p).flatMap f := by
  rw [flatMap_filter_eq_ite]
  apply List.flatMap_congr
  intro k hk
  by_cases hp : p k = true
  · rw [if_pos hp]
  · rw [if_neg hp, h k hk (Bool.eq_false_iff.mpr hp)]

theorem flatMap_single_key {α : Type} :
    ∀ (keys : List Nat), keys.Nodup → ∀ (c : Nat) (X : List α), c ∈ keys →
      keys.flatMap (fun p => if c = p then X else []) = X := by
  intro keys
  induction keys with
  | nil => intro _ c X h; simp at h
  | cons k ks ih =>
    intro hnd c X hc
    rcases List.nodup_cons.mp hnd with ⟨hkn, hnd'⟩
    simp only [List.flatMap_cons]
    by_cases hck : c = k
    · rw [if_pos hck]
      have hne : ∀ p ∈ ks, ¬ (c = p) := by
        intro p hp h
        apply hkn
        rw [hck] at h
        rw [h]
        exact hp
      have hrest : ks.flatMap (fun p => if c = p then X else []) = [] := by
        have h1 : ∀ p ∈ ks, (if c = p then X else []) = [] := by
          intro p hp
          rw [if_neg (hne p hp)]
        rw [List.flatMap_congr h1, flatMap_nil_const]
      rw [hrest, List.append_nil]
    · rw [if_neg hck]
      have hc' : c ∈ ks := by
        rcases List.mem_cons.mp hc with h | h
        · exact absurd h hck
        · exact h
      rw [List.nil_append]
      exact ih hnd' c X hc'

theorem seqOpt_map_some {α β : Type} {l : List α} {g : α → Option β} {f : α → β}
    (h : ∀ x ∈ l, g x = some (f x)) : seqOpt (l.map g) = some (l.map f) := by
  induction l with
  | nil => rfl
  | cons a l ih =>
    rw [List.map_cons, List.map_cons]
    rw [show g a = some (f a) from h a (by simp)]
    show (seqOpt (l.map g)).map (fun as => f a :: as) = _
    rw [ih (fun x hx => h x (by simp [hx]))]
    rfl

theorem filterMap_if_filter {α β : Type} (l : List α) (p : α → Bool) (f : α → β) :
    l.filterMap (fun x => if p x then some (f x) else none) = (l.filter p).map f := by
  induction l with
  | nil => rfl
  | cons a l ih =>
    rw [List.filterMap_cons, List.filter_cons]
    by_cases hp : p a = true
    · rw [if_pos hp, if_pos hp, List.map_cons, ih]
    · rw [if_neg hp, if_neg hp, ih]

theorem filter_filterMap_absorb {α β : Type} (l : List α) (p : α → Bool) (q : α → Option β)
    (h : ∀ x ∈ l, q x ≠ none → p x = true) :
    (l.filter p).filterMap q = l.filterMap q := by
  induction l with
  | nil => rfl
  | cons a l ih =>
    rw [List.filter_cons]
    by_cases hp : p a = true
    · rw [if_pos hp, List.filterMap_cons, List.filterMap_cons]
      cases hq : q a with
      | none => exact ih (fun x hx => h x (by simp [hx]))
      | some b => rw [ih (fun x hx => h x (by simp [hx]))]
    · rw [if_neg hp]
      have hq : q a = none := by
        by_contra hc
        exact hp (h a (by simp) hc)
      rw [List.filterMap_cons, hq]
      exact ih (fun x hx => h x (by simp [hx]))

theorem filter_const_list {α : Type} (l : List α) (b : Bool) :
    l.filter (fun _ => b) = if b then l else [] := by
  cases b with
  | true => simp
  | false => simp

theorem insertHO_perm (e : JoinRegistry) :
    ∀ l : List JoinRegistry, (insertHO e l).Perm (e :: l) := by
  intro l
  induction l with
  | nil => exact List.Perm.refl _
  | cons x xs ih =>
    unfold insertHO
    by_cases h : byHashOwnerLe e x = true
    · rw [if_pos h]
    · rw [if_neg h]
      exact List.Perm.trans (ih.cons x) (List.Perm.swap e x xs)

theorem sortHO_perm (l : List JoinRegistry) : (sortHO l).Perm l := by
  induction l with
  | nil => exact List.Perm.refl _
  | cons x xs ih =>
    show (insertHO x (sortHO xs)).Perm (x :: xs)
    exact List.Perm.trans (insertHO_perm x (sortHO xs)) (ih.cons x)

theorem byHashOwnerLe_true_leHO {a b : JoinRegistry} (h : byHashOwnerLe a b = true) :
    leHO a b := by
  unfold byHashOwnerLe at h
  unfold leHO
  rcases Bool.or_eq_true_iff.mp h with h1 | h2
  · left
    simpa using h1
  · rcases Bool.and_eq_true_iff.mp h2 with ⟨he, ho⟩
    right
    exact ⟨by simpa using he, by simpa using ho⟩

theorem byHashOwnerLe_false_leHO {a b : JoinRegistry} (h : byHashOwnerLe a b = false) :
    leHO b a := by
  unfold byHashOwnerLe at h
  rcases Bool.or_eq_false_iff.mp h with ⟨h1, h2⟩
  have hh : ¬ a.hash < b.hash := by simpa using h1
  unfold leHO
  by_cases hb : b.hash < a.hash
  · exact Or.inl hb
  · have heq : a.hash = b.hash := by omega
    right
    refine ⟨heq.symm, ?_⟩
    rcases Bool.and_eq_false_iff.mp h2 with h3 | h3
    · exact absurd (by simpa using heq) (by simpa using h3)
    · have : ¬ a.owner_rank ≤ b.owner_rank := by simpa using h3
      omega

theorem leHO_trans {a b c : JoinRegistry} (h1 : leHO a b) (h2 : leHO b c) : leHO a c := by
  unfold leHO at h1 h2 ⊢
  rcases h1 with h1 | ⟨h1e, h1o⟩ <;> rcases h2 with h2 | ⟨h2e, h2o⟩
  · left; omega
  · left; omega
  · left; omega
  · right; exact ⟨by omega, by omega⟩

theorem insertHO_sorted (e : JoinRegistry) :
    ∀ l : List JoinRegistry, SortedHO l → SortedHO (insertHO e l) := by
  intro l
  induction l with
  | nil => intro _; exact List.pairwise_singleton _ _
  | cons x xs ih =>
    intro hs
    rcases List.pairwise_cons.mp hs with ⟨hx, hs'⟩
    unfold insertHO
    by_cases h : byHashOwnerLe e x = true
    · rw [if_pos h]
      refine List.pairwise_cons.mpr ⟨?_, hs⟩
      intro y hy
      rcases List.mem_cons.mp hy with rfl | hy'
      · exact byHashOwnerLe_true_leHO h
      · exact leHO_trans (byHashOwnerLe_true_leHO h) (hx y hy')
    · rw [if_neg h]
      refine List.pairwise_cons.mpr ⟨?_, ih hs'⟩
      intro y hy
      have hy' := (insertHO_perm e xs).mem_iff.mp hy
      rcases List.mem_cons.mp hy' with rfl | hy''
      · exact byHashOwnerLe_false_leHO (Bool.eq_false_iff.mpr h)
      · exact hx y hy''

theorem sortHO_sorted (l : List JoinRegistry) : SortedHO (sortHO l) := by
  induction l with
  | nil => exact List.Pairwise.nil
  | cons x xs ih => exact insertHO_sorted x (sortHO xs) ih

theorem beq_comm_decide (a b : Nat) : (a == b) = decide (b = a) := by
  by_cases h : a = b
  · subst h; simp
  · have h' : ¬ b = a := fun hc => h hc.symm
    simp [h, h']

theorem filter_sameOwner_decide (Rh : List JoinRegistry) (o : Nat) :
    Rh.filter (sameOwner o) = Rh.filter (fun e => e.owner_rank = o) := by
  apply List.filter_congr
  intro e _
  show sameOwner o e = decide (e.owner_rank = o)
  unfold sameOwner
  exact beq_comm_decide o e.owner_rank

theorem filter_sameHash_decide (L : List JoinRegistry) (h : Nat) :
    L.filter (sameHash h) = L.filter (fun e => e.hash = h) := by
  apply List.filter_congr
  intro e _
  show sameHash h e = decide (e.hash = h)
  unfold sameHash
  exact beq_comm_decide h e.hash

theorem ownerPartition_pairs_perm (Rh : List JoinRegistry)
    (lr : JoinLeftInfo) :
    ((dedupFirst (Rh.map (fun e => e.owner_rank))).flatMap (fun o =>
        (packRightInfo (Rh.filter (sameOwner o))).map (fun j => (lr, (o, j))))).Perm
      (Rh.map (fun re => (lr, (re.owner_rank, re.owner_index)))) := by
  have e1 : ∀ o ∈ dedupFirst (Rh.map (fun e => e.owner_rank)),
      (packRightInfo (Rh.filter (sameOwner o))).map (fun j => (lr, (o, j)))
        = (Rh.filter (sameOwner o)).map (fun re => (lr, (re.owner_rank, re.owner_index))) := by
    intro o _
    unfold packRightInfo
    rw [List.map_map]
    apply List.map_congr_left
    intro re hre
    have ho : o = re.owner_rank := by
      simpa [sameOwner] using (List.mem_filter.mp hre).2
    simp [Function.comp, ho]
  rw [List.flatMap_congr e1]
  have e2 : ∀ o ∈ dedupFirst (Rh.map (fun e => e.owner_rank)),
      (Rh.filter (sameOwner o)).map (fun re => (lr, (re.owner_rank, re.owner_index)))
        = (Rh.filter (fun e => e.owner_rank = o)).map
            (fun re => (lr, (re.owner_rank, re.owner_index))) := by
    intro o _
    rw [filter_sameOwner_decide]
  rw [List.flatMap_congr e2]
  rw [← List.map_flatMap]
  refine List.Perm.map _ ?_
  apply partition_flatMap_perm (fun e => e.owner_rank) Rh
  · exact nodup_dedupFirst _
  · intro x hx
    exact mem_dedupFirst.mpr (List.mem_map.mpr ⟨x, hx, rfl⟩)

theorem bundlePairs_candidateSpec_perm (L R : List JoinRegistry) :
    (bundlePairs (candidateSpec L R)).Perm ((hashPairsAt L R).map pairRefs) := by
  unfold bundlePairs candidateSpec
  rw [List.flatMap_assoc]
  have hinner : ∀ h ∈ ((dedupFirst (L.map (fun e => e.hash))).filter
        (fun h => h ∈ R.map (fun e => e.hash))),
      ((dedupFirst ((R.filter (sameHash h)).map (fun e => e.owner_rank))).map (fun o =>
          (o, MergeCandidates.mk (packRightInfo ((R.filter (sameHash h)).filter (sameOwner o)))
            (packLeftInfo (L.filter (sameHash h)))))).flatMap
        (fun ob => ob.2.remote_data.flatMap (fun lr =>
          ob.2.local_data.map (fun j => (lr, (ob.1, j)))))
      = (dedupFirst ((R.filter (sameHash h)).map (fun e => e.owner_rank))).flatMap (fun o =>
          (packLeftInfo (L.filter (sameHash h))).flatMap (fun lr =>
            (packRightInfo ((R.filter (sameHash h)).filter (sameOwner o))).map
              (fun j => (lr, (o, j))))) := by
    intro h _
    rw [List.flatMap_map]
  rw [List.flatMap_congr hinner]
  have hper : ∀ h ∈ ((dedupFirst (L.map (fun e => e.hash))).filter
        (fun h => h ∈ R.map (fun e => e.hash))),
      ((dedupFirst ((R.filter (sameHash h)).map (fun e => e.owner_rank))).flatMap (fun o =>
          (packLeftInfo (L.filter (sameHash h))).flatMap (fun lr =>
            (packRightInfo ((R.filter (sameHash h)).filter (sameOwner o))).map
              (fun j => (lr, (o, j)))))).Perm
        ((L.filter (sameHash h)).flatMap (fun le =>
          (R.filter (sameHash h)).map (fun re => pairRefs (le, re)))) := by
    intro h _
    refine List.Perm.trans (swap_flatMap_perm _ _ _) ?_
    have hlr : ∀ lr ∈ packLeftInfo (L.filter (sameHash h)),
        ((dedupFirst ((R.filter (sameHash h)).map (fun e => e.owner_rank))).flatMap (fun o =>
            (packRightInfo ((R.filter (sameHash h)).filter (sameOwner o))).map
              (fun j => (lr, (o, j))))).Perm
          ((R.filter (sameHash h)).map
            (fun re => (lr, (re.owner_rank, re.owner_index)))) :=
      fun lr _ => ownerPartition_pairs_perm (R.filter (sameHash h)) lr
    refine List.Perm.trans (flatMap_perm_congr hlr) ?_
    unfold packLeftInfo
    rw [List.flatMap_map]
    exact List.Perm.refl _
  refine List.Perm.trans (flatMap_perm_congr hper) ?_
  have hempty : ∀ h ∈ dedupFirst (L.map (fun e => e.hash)),
      (decide (h ∈ R.map (fun e => e.hash))) = false →
      ((L.filter (sameHash h)).flatMap (fun le =>
        (R.filter (sameHash h)).map (fun re => pairRefs (le, re)))) = [] := by
    intro h _ hdec
    have hnm : h ∉ R.map (fun e => e.hash) := by simpa using hdec
    have hRh : R.filter (sameHash h) = [] := by
      apply List.filter_eq_nil_iff.mpr
      intro e he hc
      have heh : h = e.hash := by simpa [sameHash] using hc
      exact hnm (List.mem_map.mpr ⟨e, he, heh.symm⟩)
    rw [hRh]
    have h1 : ∀ le ∈ L.filter (sameHash h),
        (([] : List JoinRegistry).map (fun re => pairRefs (le, re))) = [] := fun _ _ => rfl
    rw [List.flatMap_congr h1, flatMap_nil_const]
  rw [← flatMap_filter_of_empty _ _ _ hempty]
  have hbody2 : ∀ h ∈ dedupFirst (L.map (fun e => e.hash)),
      ((L.filter (sameHash h)).flatMap (fun le =>
        (R.filter (sameHash h)).map (fun re => pairRefs (le, re))))
      = ((L.filter (fun e => e.hash = h)).flatMap (fun le =>
        (R.filter (sameHash le.hash)).map (fun re => pairRefs (le, re)))) := by
    intro h _
    rw [filter_sameHash_decide L h]
    apply List.flatMap_congr
    intro le hle
    have : le.hash = h := by simpa using (List.mem_filter.mp hle).2
    rw [this]
  rw [List.flatMap_congr hbody2]
  rw [← List.flatMap_assoc]
  have hpart : ((dedupFirst (L.map (fun e => e.hash))).flatMap (fun h =>
      L.filter (fun e => e.hash = h))).Perm L := by
    apply partition_flatMap_perm (fun e => e.hash) L
    · exact nodup_dedupFirst _
    · intro x hx
      exact mem_dedupFirst.mpr (List.mem_map.mpr ⟨x, hx, rfl⟩)
  refine List.Perm.trans (hpart.flatMap_right _) ?_
  unfold hashPairsAt
  rw [List.map_flatMap]
  have hfin : ∀ le ∈ L,
      ((R.filter (sameHash le.hash)).map (fun re => pairRefs (le, re)))
      = (((R.filter (sameHash le.hash)).map (fun re => (le, re))).map pairRefs) := by
    intro le _
    rw [List.map_map]
    rfl
  rw [List.flatMap_congr hfin]

theorem natBeq_decide (a b : Nat) : (a == b) = decide (a = b) := by
  by_cases h : a = b
  · subst h; simp
  · simp [h]

theorem joinIndexAt_eq_filter (P : Nat) (shards : List (List JsonObj))
    (cols : ColumnSelector) (p : Nat) :
    joinIndexAt P shards cols p
      = ((indexedRows shards).map (entryOf cols)).filter (fun e => e.hash % P == p) := by
  unfold joinIndexAt
  rw [allPhase1Msgs_eq_map, List.filter_map, List.map_map, List.filter_map]
  rfl

theorem hashPairsAt_perm {L Lq R Rq : List JoinRegistry} (hL : L.Perm Lq) (hR : R.Perm Rq) :
    (hashPairsAt L R).Perm (hashPairsAt Lq Rq) := by
  unfold hashPairsAt
  refine List.Perm.trans (hL.flatMap_right _) ?_
  apply flatMap_perm_congr
  intro le _
  exact (hR.filter _).map _

theorem flatMap_hashPairs_filter_perm (P : Nat) (hP : 0 < P) (EL ER : List JoinRegistry) :
    ((List.range P).flatMap (fun p =>
        hashPairsAt (EL.filter (fun e => e.hash % P == p))
          (ER.filter (fun e => e.hash % P == p)))).Perm (hashPairsAt EL ER) := by
  have hbody : ∀ p ∈ List.range P,
      hashPairsAt (EL.filter (fun e => e.hash % P == p)) (ER.filter (fun e => e.hash % P == p))
        = (EL.filter (fun e => decide (e.hash % P = p))).flatMap
            (fun le => (ER.filter (sameHash le.hash)).map (fun re => (le, re))) := by
    intro p _
    unfold hashPairsAt
    have hfe : EL.filter (fun e => e.hash % P == p)
        = EL.filter (fun e => decide (e.hash % P = p)) := by
      apply List.filter_congr
      intro e _
      exact natBeq_decide (e.hash % P) p
    rw [hfe]
    apply List.flatMap_congr
    intro le hle
    have hlep : le.hash % P = p := by
      have := (List.mem_filter.mp hle).2
      simpa using this
    have hR : (ER.filter (fun e => e.hash % P == p)).filter (sameHash le.hash)
        = ER.filter (sameHash le.hash) := by
      rw [List.filter_comm]
      apply List.filter_eq_self.mpr
      intro e he
      have hsh : le.hash = e.hash := by
        simpa [sameHash] using (List.mem_filter.mp he).2
      simp [← hsh, hlep]
    rw [hR]
  rw [List.flatMap_congr hbody]
  rw [← List.flatMap_assoc]
  have hpart : ((List.range P).flatMap (fun p =>
      EL.filter (fun e => decide (e.hash % P = p)))).Perm EL := by
    apply partition_flatMap_perm (fun e => e.hash % P) EL
    · exact List.nodup_range P
    · intro x _
      exact List.mem_range.mpr (Nat.mod_lt _ hP)
  exact hpart.flatMap_right _

theorem bundlePairs_flatMap (l : List Nat) (f : Nat → List (Nat × MergeCandidates)) :
    bundlePairs (l.flatMap f) = l.flatMap (fun p => bundlePairs (f p)) := by
  unfold bundlePairs
  rw [List.flatMap_assoc]

theorem routedPairs_perm (m : MergeIn) (hP : 0 < m.P) :
    (routedPairs m).Perm
      ((hashPairsAt ((indexedRows m.lsh).map (entryOf m.lhsOn))
          ((indexedRows m.rsh).map (entryOf m.rhsOn))).map pairRefs) := by
  have h1 : routedPairs m = (List.range m.P).flatMap (fun p => bundlePairs (candMsgsFrom m p)) := by
    unfold routedPairs allCandMsgs
    exact bundlePairs_flatMap _ _
  rw [h1]
  have h2 : ∀ p ∈ List.range m.P,
      (bundlePairs (candMsgsFrom m p)).Perm
        ((hashPairsAt
            (((indexedRows m.lsh).map (entryOf m.lhsOn)).filter (fun e => e.hash % m.P == p))
            (((indexedRows m.rsh).map (entryOf m.rhsOn)).filter
              (fun e => e.hash % m.P == p))).map pairRefs) := by
    intro p _
    have hml : candMsgsFrom m p = candidateSpec (sortedLIndexAt m p) (sortedRIndexAt m p) := by
      unfold candMsgsFrom
      exact matchLoop_closed _ _ _ (Nat.le_refl _) (sortHO_sorted _) (sortHO_sorted _)
    rw [hml]
    refine List.Perm.trans (bundlePairs_candidateSpec_perm _ _) ?_
    refine List.Perm.map _ ?_
    unfold sortedLIndexAt sortedRIndexAt
    apply hashPairsAt_perm
    · refine List.Perm.trans (sortHO_perm _) ?_
      rw [joinIndexAt_eq_filter]
    · refine List.Perm.trans (sortHO_perm _) ?_
      rw [joinIndexAt_eq_filter]
  refine List.Perm.trans (flatMap_perm_congr h2) ?_
  rw [← List.map_flatMap]
  exact (flatMap_hashPairs_filter_perm m.P hP _ _).map pairRefs

theorem mem_indexedRows {shards : List (List JsonObj)} {x : (Nat × Nat) × JsonObj}
    (hx : x ∈ indexedRows shards) :
    (shards.getD x.1.1 []).getD x.1.2 [] = x.2 := by
  unfold indexedRows at hx
  rcases List.mem_flatMap.mp hx with ⟨rs, hrs, hx2⟩
  rcases List.mem_map.mp hx2 with ⟨ir, hir, rfl⟩
  have h1 : shards[rs.1]? = some rs.2 := List.mem_enum_iff_getElem?.mp hrs
  have h2 : rs.2[ir.1]? = some ir.2 := List.mem_enum_iff_getElem?.mp hir
  have hs : shards.getD rs.1 [] = rs.2 := by
    simp [List.getD_eq_getElem?_getD, h1]
  show ((shards.getD rs.1 []).getD ir.1 []) = ir.2
  rw [hs]
  simp [List.getD_eq_getElem?_getD, h2]

theorem hashPairs_map_pairRefs (m : MergeIn) :
    (hashPairsAt ((indexedRows m.lsh).map (entryOf m.lhsOn))
        ((indexedRows m.rsh).map (entryOf m.rhsOn))).map pairRefs
      = ((pairsOf (indexedRows m.lsh) (indexedRows m.rsh)).filter
          (fun pr => computeHashFrom 0 pr.1.2 m.lhsOn == computeHashFrom 0 pr.2.2 m.rhsOn)).map
            (fun pr => (pr.1.1, pr.2.1)) := by
  unfold hashPairsAt pairsOf
  rw [List.flatMap_map, List.map_flatMap, List.filter_flatMap, List.map_flatMap]
  apply List.flatMap_congr
  intro a _
  rw [List.filter_map, List.map_map, List.filter_map, List.map_map, List.map_map]
  rfl

theorem groupByOwner_flatten (p : Nat) :
    ∀ (n : Nat) (lrefs : List JoinLeftInfo), lrefs.length ≤ n →
      ((groupByOwner lrefs).filter (fun g => g.1 == p)).flatMap (fun g => g.2)
        = (lrefs.filter (fun lr => lr.1 == p)).map (fun lr => lr.2) := by
  intro n
  induction n with
  | zero =>
    intro lrefs h
    have : lrefs = [] := List.length_eq_zero.mp (Nat.le_zero.mp h)
    subst this
    rfl
  | succ n ih =>
    intro lrefs h
    cases lrefs with
    | nil => rfl
    | cons lr lrs =>
      rw [groupByOwner_cons]
      have hdlen : (lrs.dropWhile (fun el => el.1 == lr.1)).length ≤ n := by
        have hsub : List.Sublist (lrs.dropWhile (fun el => el.1 == lr.1)) lrs :=
          List.dropWhile_sublist _
        have := hsub.length_le
        simp only [List.length_cons] at h
        omega
      have hsplit : lrs.filter (fun el => el.1 == p)
          = (lrs.takeWhile (fun el => el.1 == lr.1)).filter (fun el => el.1 == p)
            ++ (lrs.dropWhile (fun el => el.1 == lr.1)).filter (fun el => el.1 == p) := by
        rw [← List.filter_append, List.takeWhile_append_dropWhile]
      cases hb : (lr.1 == p) with
      | false =>
        have hne : ¬ lr.1 = p := by simpa using hb
        simp only [List.filter_cons, hb, Bool.false_eq_true, if_false]
        rw [ih _ hdlen, hsplit]
        have htw : (lrs.takeWhile (fun el => el.1 == lr.1)).filter (fun el => el.1 == p)
            = [] := by
          apply List.filter_eq_nil_iff.mpr
          intro x hx hpx
          have h1 : x.1 = lr.1 := by simpa using List.mem_takeWhile_imp hx
          have h2 : x.1 = p := by simpa using hpx
          exact hne (h1 ▸ h2)
        rw [htw, List.nil_append]
      | true =>
        have heq : lr.1 = p := by simpa using hb
        simp only [List.filter_cons, hb, if_true]
        rw [List.flatMap_cons, ih _ hdlen, hsplit]
        have htw : (lrs.takeWhile (fun el => el.1 == lr.1)).filter (fun el => el.1 == p)
            = lrs.takeWhile (fun el => el.1 == lr.1) := by
          apply List.filter_eq_self.mpr
          intro x hx
          have h1 : x.1 = lr.1 := by simpa using List.mem_takeWhile_imp hx
          simp [h1, heq]
        rw [htw, List.map_cons, List.map_append]
        rfl

theorem flatMap_filterMap {α β γ : Type} (l : List α) (f : α → List β) (g : β → Option γ) :
    (l.flatMap f).filterMap g = l.flatMap (fun a => (f a).filterMap g) := by
  induction l with
  | nil => rfl
  | cons a l ih =>
    simp only [List.flatMap_cons, List.filterMap_append]
    rw [ih]

theorem lookupF_filterMapProj {row : JsonObj} {c : String} {v : Json}
    (hv : lookupF row c = some v) :
    ∀ sel : ColumnSelector, c ∈ sel →
      lookupF (sel.filterMap (fun k => (lookupF row k).map (fun w => (k, w)))) c = some v := by
  intro sel
  induction sel with
  | nil => intro h; exact absurd h (List.not_mem_nil c)
  | cons k ks ih =>
    intro hc
    by_cases hk : k = c
    · subst hk
      simp only [List.filterMap_cons, hv, Option.map_some]
      show lookupF ((k, v) :: _) k = some v
      unfold lookupF
      rw [if_pos rfl]
    · have hc' : c ∈ ks := by
        rcases List.mem_cons.mp hc with h | h
        · exact absurd h.symm hk
        · exact h
      cases hlk : lookupF row k with
      | none =>
        simp only [List.filterMap_cons, hlk, Option.map_none]
        exact ih hc'
      | some w =>
        simp only [List.filterMap_cons, hlk, Option.map_some]
        show lookupF ((k, w) :: _) c = some v
        unfold lookupF
        rw [if_neg hk]
        exact ih hc'

theorem lookupF_projectRow {row : JsonObj} {c : String} {v : Json}
    (hv : lookupF row c = some v) (sel : ColumnSelector) (hc : sel = [] ∨ c ∈ sel) :
    lookupF (projectRow sel row) c = some v := by
  cases sel with
  | nil => exact hv
  | cons k ks =>
    have hcm : c ∈ k :: ks := by
      rcases hc with h | h
      · exact absurd h (by simp)
      · exact h
    show lookupF (if (k :: ks).isEmpty then row
      else (k :: ks).filterMap (fun k => (lookupF row k).map (fun w => (k, w)))) c = some v
    rw [if_neg (by simp)]
    exact lookupF_filterMapProj hv (k :: ks) hcm

theorem foldl_addJoin_mem (c : String) :
    ∀ (joincol out : ColumnSelector), c ∈ out ∨ c ∈ joincol →
      c ∈ joincol.foldl (fun out col => if col ∈ out then out else out ++ [col]) out := by
  intro joincol
  induction joincol with
  | nil =>
    intro out h
    rcases h with h | h
    · exact h
    · exact absurd h (List.not_mem_nil c)
  | cons col rest ih =>
    intro out h
    show c ∈ rest.foldl _ (if col ∈ out then out else out ++ [col])
    rcases h with h | h
    · apply ih
      left
      by_cases hco : col ∈ out
      · rw [if_pos hco]; exact h
      · rw [if_neg hco]; exact List.mem_append.mpr (Or.inl h)
    · rcases List.mem_cons.mp h with rfl | h'
      · apply ih
        left
        by_cases hco : c ∈ out
        · rw [if_pos hco]; exact hco
        · rw [if_neg hco]; exact List.mem_append.mpr (Or.inr (by simp))
      · exact ih _ (Or.inr h')

theorem mem_sendListRhs {c : String} {rhsOn projRhs : ColumnSelector}
    (hne : projRhs ≠ []) (hc : c ∈ rhsOn) : c ∈ sendListRhs rhsOn projRhs := by
  unfold sendListRhs addJoinColumnsToOutput
  rw [if_neg (by simpa using hne)]
  exact foldl_addJoin_mem c rhsOn projRhs (Or.inr hc)

theorem checkJoinKeys_eq (l robj r : JsonObj) :
    ∀ cols : List (String × String),
      (∀ c ∈ cols, (lookupF l c.1).isSome = true) →
      (∀ c ∈ cols, lookupF robj c.2 = lookupF r c.2) →
      (∀ c ∈ cols, (lookupF r c.2).isSome = true) →
      checkJoinKeys l robj cols
        = some (cols.all (fun c =>
            match lookupF l c.1, lookupF r c.2 with
            | some lv, some rv => jsonEq lv rv
            | _, _ => false)) := by
  intro cols
  induction cols with
  | nil => intro _ _ _; rfl
  | cons c rest ih =>
    intro hL hRO hR
    rcases Option.isSome_iff_exists.mp (hL c (by simp)) with ⟨lv, hlv⟩
    rcases Option.isSome_iff_exists.mp (hR c (by simp)) with ⟨rv, hrv⟩
    have hro : lookupF robj c.2 = some rv := by rw [hRO c (by simp), hrv]
    show (match lookupF l c.1, lookupF robj c.2 with
      | some lv, some rv =>
        if jsonEq lv rv then checkJoinKeys l robj rest else some false
      | _, _ => none) = _
    rw [hlv, hro]
    have hall : (c :: rest).all (fun c =>
        match lookupF l c.1, lookupF r c.2 with
        | some lv, some rv => jsonEq lv rv
        | _, _ => false)
        = (jsonEq lv rv && rest.all (fun c =>
            match lookupF l c.1, lookupF r c.2 with
            | some lv, some rv => jsonEq lv rv
            | _, _ => false)) := by
      rw [List.all_cons, hlv, hrv]
    rw [hall]
    show (if jsonEq lv rv = true then checkJoinKeys l robj rest else some false)
      = some (jsonEq lv rv && rest.all (fun c =>
          match lookupF l c.1, lookupF r c.2 with
          | some lv, some rv => jsonEq lv rv
          | _, _ => false))
    cases hje : jsonEq lv rv with
    | false =>
      rw [if_neg (by simp)]
      simp
    | true =>
      rw [if_pos rfl]
      rw [ih (fun c h => hL c (by simp [h])) (fun c h => hRO c (by simp [h]))
        (fun c h => hR c (by simp [h]))]
      simp

theorem computeJoinOnPair_eq (m : MergeIn) (pr : JoinLeftInfo × (Nat × Nat))
    (hlen : m.lhsOn.length = m.rhsOn.length)
    (hL : ∀ c ∈ m.lhsOn, (lookupF ((m.lsh.getD pr.1.1 []).getD pr.1.2 []) c).isSome = true)
    (hR : ∀ c ∈ m.rhsOn, (lookupF ((m.rsh.getD pr.2.1 []).getD pr.2.2 []) c).isSome = true) :
    computeJoinOnPair m pr = some (stepPure m pr) := by
  have hRO : ∀ c ∈ m.rhsOn,
      lookupF (projectRow (sendListRhs m.rhsOn m.projRhs)
          ((m.rsh.getD pr.2.1 []).getD pr.2.2 [])) c
        = lookupF ((m.rsh.getD pr.2.1 []).getD pr.2.2 []) c := by
    intro c hc
    rcases Option.isSome_iff_exists.mp (hR c hc) with ⟨v, hv⟩
    rw [hv]
    by_cases hp : m.projRhs = []
    · have hsl : sendListRhs m.rhsOn m.projRhs = [] := by
        rw [hp]
        rfl
      rw [hsl]
      exact lookupF_projectRow hv [] (Or.inl rfl)
    · exact lookupF_projectRow hv _ (Or.inr (mem_sendListRhs hp hc))
  have hchk : checkJoinKeys ((m.lsh.getD pr.1.1 []).getD pr.1.2 [])
      (projectRow (sendListRhs m.rhsOn m.projRhs) ((m.rsh.getD pr.2.1 []).getD pr.2.2 []))
      (m.lhsOn.zip m.rhsOn)
      = some (rowsMatch m.lhsOn m.rhsOn ((m.lsh.getD pr.1.1 []).getD pr.1.2 [])
          ((m.rsh.getD pr.2.1 []).getD pr.2.2 [])) := by
    apply checkJoinKeys_eq
    · intro c hc
      exact hL c.1 (List.of_mem_zip hc).1
    · intro c hc
      exact hRO c.2 (List.of_mem_zip hc).2
    · intro c hc
      exact hR c.2 (List.of_mem_zip hc).2
  unfold computeJoinOnPair computeJoin
  rw [if_neg (by simp [hlen])]
  show (match checkJoinKeys ((m.lsh.getD pr.1.1 []).getD pr.1.2 [])
      (projectRow (sendListRhs m.rhsOn m.projRhs) ((m.rsh.getD pr.2.1 []).getD pr.2.2 []))
      (m.lhsOn.zip m.rhsOn) with
    | none => none
    | some false => some none
    | some true => some (some _)) = _
  rw [hchk]
  have hsp : stepPure m pr
      = if rowsMatch m.lhsOn m.rhsOn ((m.lsh.getD pr.1.1 []).getD pr.1.2 [])
            ((m.rsh.getD pr.2.1 []).getD pr.2.2 []) = true then
          some (joinRecords ((m.lsh.getD pr.1.1 []).getD pr.1.2 []) m.projLhs
            (projectRow (sendListRhs m.rhsOn m.projRhs)
              ((m.rsh.getD pr.2.1 []).getD pr.2.2 [])) m.projRhs)
        else none := rfl
  rw [hsp]
  cases rowsMatch m.lhsOn m.rhsOn ((m.lsh.getD pr.1.1 []).getD pr.1.2 [])
      ((m.rsh.getD pr.2.1 []).getD pr.2.2 []) with
  | false => rw [if_neg (by simp)]
  | true => rw [if_pos rfl]

theorem mem_mergeCandidatesAt {m : MergeIn} {o : Nat} {b : MergeCandidates}
    (h : b ∈ mergeCandidatesAt m o) : (o, b) ∈ allCandMsgs m := by
  unfold mergeCandidatesAt at h
  rcases List.mem_map.mp h with ⟨msg, hmsg, rfl⟩
  rcases List.mem_filter.mp hmsg with ⟨hmem, hdest⟩
  have hde : msg.1 = o := by simpa using hdest
  rw [← hde]
  exact hmem

theorem mem_allCandMsgs_bundle {m : MergeIn} {d : Nat} {b : MergeCandidates}
    (h : (d, b) ∈ allCandMsgs m) : b.local_data ≠ [] ∧ b.remote_data ≠ [] := by
  unfold allCandMsgs at h
  rcases List.mem_flatMap.mp h with ⟨p, _, hmem⟩
  unfold candMsgsFrom matchLoop at hmem
  exact matchLoopF_mem _ _ _ _ _ hmem

theorem shipCandidate_eq (m : MergeIn) (o : Nat) (b : MergeCandidates)
    (hb : b.remote_data ≠ []) : shipCandidate m o b = some (payloadPure m o b) := by
  unfold shipCandidate payloadPure
  rw [if_neg (by simp only [List.isEmpty_iff]; exact hb)]

theorem payloadMsgsFrom_eq (m : MergeIn) (o : Nat) :
    payloadMsgsFrom m o = some ((mergeCandidatesAt m o).flatMap (payloadPure m o)) := by
  unfold payloadMsgsFrom
  have hship : ∀ b ∈ mergeCandidatesAt m o, shipCandidate m o b = some (payloadPure m o b) :=
    fun b hb => shipCandidate_eq m o b (mem_allCandMsgs_bundle (mem_mergeCandidatesAt hb)).2
  rw [seqOpt_map_some hship]
  rfl

theorem allPayloadMsgs_eq (m : MergeIn) : allPayloadMsgs m = some (payloadMsgs m) := by
  unfold allPayloadMsgs
  have h : ∀ o ∈ List.range m.P,
      payloadMsgsFrom m o = some ((mergeCandidatesAt m o).flatMap (payloadPure m o)) :=
    fun o _ => payloadMsgsFrom_eq m o
  rw [seqOpt_map_some h]
  rfl

theorem mem_indexedRows_rank {shards : List (List JsonObj)} {x : (Nat × Nat) × JsonObj}
    (hx : x ∈ indexedRows shards) : x.1.1 < shards.length := by
  unfold indexedRows at hx
  rcases List.mem_flatMap.mp hx with ⟨rs, hrs, hx2⟩
  rcases List.mem_map.mp hx2 with ⟨ir, _, rfl⟩
  have h1 : shards[rs.1]? = some rs.2 := List.mem_enum_iff_getElem?.mp hrs
  exact (List.getElem?_eq_some.mp h1).1

theorem candidateSpec_dest_mem {L R : List JoinRegistry} {d : Nat} {b : MergeCandidates}
    (h : (d, b) ∈ candidateSpec L R) : ∃ e ∈ R, e.owner_rank = d := by
  unfold candidateSpec at h
  rcases List.mem_flatMap.mp h with ⟨hh, _, hmem2⟩
  rcases List.mem_map.mp hmem2 with ⟨o, ho, heq⟩
  injection heq with h1 _
  have ho2 : o ∈ (R.filter (sameHash hh)).map (fun e => e.owner_rank) := mem_dedupFirst.mp ho
  rcases List.mem_map.mp ho2 with ⟨e, he, hoe⟩
  exact ⟨e, (List.mem_filter.mp he).1, hoe.trans h1⟩

theorem allCandMsgs_dest_lt (m : MergeIn) (hR : m.rsh.length = m.P) {d : Nat}
    {b : MergeCandidates} (h : (d, b) ∈ allCandMsgs m) : d < m.P := by
  unfold allCandMsgs at h
  rcases List.mem_flatMap.mp h with ⟨p, _, hmem⟩
  have hml : candMsgsFrom m p = candidateSpec (sortedLIndexAt m p) (sortedRIndexAt m p) := by
    unfold candMsgsFrom
    exact matchLoop_closed _ _ _ (Nat.le_refl _) (sortHO_sorted _) (sortHO_sorted _)
  rw [hml] at hmem
  rcases candidateSpec_dest_mem hmem with ⟨e, he, hoe⟩
  have he2 : e ∈ joinIndexAt m.P m.rsh m.rhsOn p := (sortHO_perm _).mem_iff.mp he
  rw [joinIndexAt_eq_filter] at he2
  rcases List.mem_map.mp (List.mem_filter.mp he2).1 with ⟨x, hx, rfl⟩
  have hlt : x.1.1 < m.rsh.length := mem_indexedRows_rank hx
  rw [← hoe]
  show x.1.1 < m.P
  omega

theorem mem_pairsOf {α β : Type} {A : List α} {B : List β} {q : α × β}
    (h : q ∈ pairsOf A B) : q.1 ∈ A ∧ q.2 ∈ B := by
  unfold pairsOf at h
  rcases List.mem_flatMap.mp h with ⟨a, ha, hq⟩
  rcases List.mem_map.mp hq with ⟨b, hb, rfl⟩
  exact ⟨ha, hb⟩

theorem pairsListAt_eq_filter (m : MergeIn) (p : Nat) :
    pairsListAt m p = (payloadPairs m).filter (fun pr => pr.1.1 == p) := by
  unfold pairsListAt payloadPairs
  rw [List.filter_flatMap]
  apply List.flatMap_congr
  intro o _
  rw [List.filter_flatMap]
  apply List.flatMap_congr
  intro b _
  rw [List.filter_flatMap, flatMap_filter_eq_ite]
  apply List.flatMap_congr
  intro lr _
  rw [List.filter_map]
  have hconst : b.local_data.filter ((fun pr => pr.1.1 == p) ∘ (fun j => (lr, (o, j))))
      = b.local_data.filter (fun _ => lr.1 == p) := rfl
  rw [hconst, filter_const_list]
  cases (lr.1 == p) <;> simp

theorem payloadPairs_perm_routed (m : MergeIn) (hRlen : m.rsh.length = m.P) :
    (payloadPairs m).Perm (routedPairs m) := by
  unfold payloadPairs
  have step1 : ∀ o ∈ List.range m.P,
      (mergeCandidatesAt m o).flatMap (fun b =>
        b.remote_data.flatMap (fun lr => b.local_data.map (fun j => (lr, (o, j)))))
      = ((allCandMsgs m).filter (fun msg => msg.1 == o)).flatMap (fun ob =>
          ob.2.remote_data.flatMap (fun lr => ob.2.local_data.map (fun j => (lr, (ob.1, j))))) := by
    intro o _
    unfold mergeCandidatesAt
    rw [List.flatMap_map]
    apply List.flatMap_congr
    intro ob hob
    have ho : ob.1 = o := by simpa using (List.mem_filter.mp hob).2
    rw [ho]
  rw [List.flatMap_congr step1]
  have step2 : ∀ o ∈ List.range m.P,
      ((allCandMsgs m).filter (fun msg => msg.1 == o)).flatMap (fun ob =>
          ob.2.remote_data.flatMap (fun lr => ob.2.local_data.map (fun j => (lr, (ob.1, j)))))
      = ((allCandMsgs m).filter (fun msg => decide (msg.1 = o))).flatMap (fun ob =>
          ob.2.remote_data.flatMap (fun lr => ob.2.local_data.map (fun j => (lr, (ob.1, j))))) := by
    intro o _
    have hf : (allCandMsgs m).filter (fun msg => msg.1 == o)
        = (allCandMsgs m).filter (fun msg => decide (msg.1 = o)) := by
      apply List.filter_congr
      intro msg _
      exact natBeq_decide msg.1 o
    rw [hf]
  rw [List.flatMap_congr step2]
  rw [← List.flatMap_assoc]
  have hpart : ((List.range m.P).flatMap (fun o =>
      (allCandMsgs m).filter (fun msg => decide (msg.1 = o)))).Perm (allCandMsgs m) := by
    apply partition_flatMap_perm (fun msg => msg.1) (allCandMsgs m)
    · exact List.nodup_range m.P
    · intro msg hmsg
      exact List.mem_range.mpr (allCandMsgs_dest_lt m hRlen hmsg)
  refine List.Perm.trans (hpart.flatMap_right _) ?_
  unfold routedPairs bundlePairs
  exact List.Perm.refl _

theorem mem_routedPairs (m : MergeIn) (hP : 0 < m.P) {pr : JoinLeftInfo × (Nat × Nat)}
    (h : pr ∈ routedPairs m) :
    ∃ x ∈ indexedRows m.lsh, ∃ y ∈ indexedRows m.rsh, pr = (x.1, y.1) := by
  have h2 := (routedPairs_perm m hP).mem_iff.mp h
  rw [hashPairs_map_pairRefs] at h2
  rcases List.mem_map.mp h2 with ⟨q, hq, rfl⟩
  have hqp := mem_pairsOf (List.mem_filter.mp hq).1
  exact ⟨q.1, hqp.1, q.2, hqp.2, rfl⟩

theorem localJoinAt_eq (m : MergeIn) (p : Nat)
    (hstep : ∀ pr ∈ pairsListAt m p, computeJoinOnPair m pr = some (stepPure m pr)) :
    localJoinAt m p (((payloadMsgs m).filter (fun msg => msg.1 == p)).map (fun msg => msg.2))
      = some ((pairsListAt m p).filterMap (stepPure m)) := by
  have hsteps :
      ((((payloadMsgs m).filter (fun msg => msg.1 == p)).map (fun msg => msg.2)).flatMap
        (fun el => el.indices.flatMap (fun lhsIdx => el.data.map (fun remoteObj =>
          computeJoin ((m.lsh.getD p []).getD lhsIdx []) m.lhsOn m.projLhs
            remoteObj m.rhsOn m.projRhs))))
      = (pairsListAt m p).map (computeJoinOnPair m) := by
    unfold payloadMsgs pairsListAt
    rw [List.filter_flatMap, List.map_flatMap, List.flatMap_assoc, List.map_flatMap]
    apply List.flatMap_congr
    intro o _
    rw [List.filter_flatMap, List.map_flatMap, List.flatMap_assoc, List.map_flatMap]
    apply List.flatMap_congr
    intro b _
    unfold payloadPure
    rw [List.filter_map, List.map_map, List.flatMap_map]
    show ((groupByOwner b.remote_data).filter (fun g2 => g2.1 == p)).flatMap
        (fun g2 => g2.2.flatMap (fun i =>
          (b.local_data.map (fun idx => Json.obj (projectRow (sendListRhs m.rhsOn m.projRhs)
            ((m.rsh.getD o []).getD idx [])))).map (fun remoteObj =>
            computeJoin ((m.lsh.getD p []).getD i []) m.lhsOn m.projLhs
              remoteObj m.rhsOn m.projRhs)))
      = _
    rw [← List.flatMap_assoc]
    rw [groupByOwner_flatten p b.remote_data.length b.remote_data (Nat.le_refl _)]
    rw [List.flatMap_map, List.map_flatMap]
    apply List.flatMap_congr
    intro lr hlr
    have hp : lr.1 = p := by simpa using (List.mem_filter.mp hlr).2
    show (b.local_data.map (fun idx => Json.obj (projectRow (sendListRhs m.rhsOn m.projRhs)
        ((m.rsh.getD o []).getD idx [])))).map (fun remoteObj =>
          computeJoin ((m.lsh.getD p []).getD lr.2 []) m.lhsOn m.projLhs
            remoteObj m.rhsOn m.projRhs)
      = _
    rw [List.map_map, List.map_map]
    apply List.map_congr_left
    intro j _
    show computeJoin ((m.lsh.getD p []).getD lr.2 []) m.lhsOn m.projLhs
        (Json.obj (projectRow (sendListRhs m.rhsOn m.projRhs)
          ((m.rsh.getD o []).getD j []))) m.rhsOn m.projRhs
      = computeJoinOnPair m (lr, (o, j))
    unfold computeJoinOnPair
    rw [hp]
  unfold localJoinAt
  rw [hsteps, seqOpt_map_some hstep]
  show some (((pairsListAt m p).map (stepPure m)).filterMap id)
    = some ((pairsListAt m p).filterMap (stepPure m))
  rw [List.filterMap_map]
  rfl

theorem pairsList_step (m : MergeIn) (hP : 0 < m.P) (hRlen : m.rsh.length = m.P)
    (hlen : m.lhsOn.length = m.rhsOn.length)
    (H1L : ∀ x ∈ indexedRows m.lsh, ∀ c ∈ m.lhsOn, (lookupF x.2 c).isSome = true)
    (H1R : ∀ y ∈ indexedRows m.rsh, ∀ c ∈ m.rhsOn, (lookupF y.2 c).isSome = true)
    (p : Nat) :
    ∀ pr ∈ pairsListAt m p, computeJoinOnPair m pr = some (stepPure m pr) := by
  intro pr hpr
  have h1 : pr ∈ payloadPairs m := by
    rw [pairsListAt_eq_filter] at hpr
    exact (List.mem_filter.mp hpr).1
  have h2 : pr ∈ routedPairs m := (payloadPairs_perm_routed m hRlen).mem_iff.mp h1
  rcases mem_routedPairs m hP h2 with ⟨x, hx, y, hy, rfl⟩
  apply computeJoinOnPair_eq m _ hlen
  · intro c hc
    show (lookupF ((m.lsh.getD x.1.1 []).getD x.1.2 []) c).isSome = true
    rw [mem_indexedRows hx]
    exact H1L x hx c hc
  · intro c hc
    show (lookupF ((m.rsh.getD y.1.1 []).getD y.1.2 []) c).isSome = true
    rw [mem_indexedRows hy]
    exact H1R y hy c hc

theorem runMerge_eq (m : MergeIn) (hP : 0 < m.P) (hRlen : m.rsh.length = m.P)
    (hlen : m.lhsOn.length = m.rhsOn.length)
    (H1L : ∀ x ∈ indexedRows m.lsh, ∀ c ∈ m.lhsOn, (lookupF x.2 c).isSome = true)
    (H1R : ∀ y ∈ indexedRows m.rsh, ∀ c ∈ m.rhsOn, (lookupF y.2 c).isSome = true) :
    runMerge m = some (joinOuts m) := by
  unfold runMerge
  rw [allPayloadMsgs_eq]
  show seqOpt ((List.range m.P).map (fun p =>
      localJoinAt m p (((payloadMsgs m).filter (fun msg => msg.1 == p)).map (fun msg => msg.2))))
    = some (joinOuts m)
  unfold joinOuts
  apply seqOpt_map_some
  intro p _
  exact localJoinAt_eq m p (pairsList_step m hP hRlen hlen H1L H1R p)

theorem joinOuts_flatten_perm (m : MergeIn) (hP : 0 < m.P)
    (hLlen : m.lsh.length = m.P) (hRlen : m.rsh.length = m.P)
    (H2 : ∀ x ∈ indexedRows m.lsh, ∀ y ∈ indexedRows m.rsh,
      rowsMatch m.lhsOn m.rhsOn x.2 y.2 = true →
      computeHashFrom 0 x.2 m.lhsOn = computeHashFrom 0 y.2 m.rhsOn) :
    (joinOuts m).flatten.Perm ((matchingPairs m).map (joinedRecordOf m)) := by
  have e1 : (joinOuts m).flatten = ((List.range m.P).flatMap (fun p =>
      (payloadPairs m).filter (fun pr => pr.1.1 == p))).filterMap (stepPure m) := by
    show (List.range m.P).flatMap (fun p => (pairsListAt m p).filterMap (stepPure m)) = _
    rw [flatMap_filterMap]
    apply List.flatMap_congr
    intro p _
    rw [pairsListAt_eq_filter]
  rw [e1]
  have hmemP : ∀ pr ∈ payloadPairs m, pr.1.1 ∈ List.range m.P := by
    intro pr hpr
    have h2 : pr ∈ routedPairs m := (payloadPairs_perm_routed m hRlen).mem_iff.mp hpr
    rcases mem_routedPairs m hP h2 with ⟨x, hx, y, hy, rfl⟩
    have hxl := mem_indexedRows_rank hx
    refine List.mem_range.mpr ?_
    show x.1.1 < m.P
    omega
  have e2 : (List.range m.P).flatMap (fun p =>
      (payloadPairs m).filter (fun pr => pr.1.1 == p))
      = (List.range m.P).flatMap (fun p =>
        (payloadPairs m).filter (fun pr => decide (pr.1.1 = p))) := by
    apply List.flatMap_congr
    intro p _
    apply List.filter_congr
    intro pr _
    exact natBeq_decide pr.1.1 p
  rw [e2]
  have hA : ((List.range m.P).flatMap (fun p =>
      (payloadPairs m).filter (fun pr => decide (pr.1.1 = p)))).Perm (payloadPairs m) := by
    apply partition_flatMap_perm (fun pr => pr.1.1) (payloadPairs m)
    · exact List.nodup_range m.P
    · exact hmemP
  refine List.Perm.trans
    (List.Perm.filterMap _ (hA.trans (payloadPairs_perm_routed m hRlen))) ?_
  refine List.Perm.trans (List.Perm.filterMap _ (routedPairs_perm m hP)) ?_
  rw [hashPairs_map_pairRefs, List.filterMap_map]
  have e3 : ((pairsOf (indexedRows m.lsh) (indexedRows m.rsh)).filter
        (fun pr => computeHashFrom 0 pr.1.2 m.lhsOn == computeHashFrom 0 pr.2.2 m.rhsOn)).filterMap
        ((stepPure m) ∘ (fun pr => (pr.1.1, pr.2.1)))
      = ((pairsOf (indexedRows m.lsh) (indexedRows m.rsh)).filter
        (fun pr => computeHashFrom 0 pr.1.2 m.lhsOn == computeHashFrom 0 pr.2.2 m.rhsOn)).filterMap
        (fun pr => if rowsMatch m.lhsOn m.rhsOn pr.1.2 pr.2.2
          then some (joinedRecordOf m pr) else none) := by
    apply List.filterMap_congr
    intro q hq
    have hqp := mem_pairsOf (List.mem_filter.mp hq).1
    show stepPure m (q.1.1, q.2.1) = _
    have hsp : stepPure m (q.1.1, q.2.1)
        = if rowsMatch m.lhsOn m.rhsOn ((m.lsh.getD q.1.1.1 []).getD q.1.1.2 [])
              ((m.rsh.getD q.2.1.1 []).getD q.2.1.2 []) = true then
            some (joinRecords ((m.lsh.getD q.1.1.1 []).getD q.1.1.2 []) m.projLhs
              (projectRow (sendListRhs m.rhsOn m.projRhs)
                ((m.rsh.getD q.2.1.1 []).getD q.2.1.2 [])) m.projRhs)
          else none := rfl
    rw [hsp, mem_indexedRows hqp.1, mem_indexedRows hqp.2]
    rfl
  rw [e3]
  have habs : ∀ q ∈ pairsOf (indexedRows m.lsh) (indexedRows m.rsh),
      (fun pr => if rowsMatch m.lhsOn m.rhsOn pr.1.2 pr.2.2
        then some (joinedRecordOf m pr) else none) q ≠ none →
      (fun pr => computeHashFrom 0 pr.1.2 m.lhsOn == computeHashFrom 0 pr.2.2 m.rhsOn) q
        = true := by
    intro q hq hne
    have hqp := mem_pairsOf hq
    by_cases hrm : rowsMatch m.lhsOn m.rhsOn q.1.2 q.2.2 = true
    · have := H2 q.1 hqp.1 q.2 hqp.2 hrm
      simpa using this
    · exfalso
      apply hne
      simp [hrm]
  rw [filter_filterMap_absorb _ _ _ habs]
  rw [filterMap_if_filter]
  exact List.Perm.refl _

/-- C1. Completeness and count law, amended: provided the world size is
positive with one shard per rank on each side, the resolved join-column
lists have equal lengths, every row of both datasets carries all of its
join columns, and the row hash is compatible with the join predicate
(value-equal join keys hash equally — true for scalar keys, violated by
key-reordered nested objects), the run completes, reports exactly one
joined record per matching (left row, right row) pair, and the output is
that multiset of joined records.  Without the hash-compatibility premise
the claimed completeness fails (`C1_completeness_counterexample`). -/
theorem C1_completeness_amended (m : MergeIn) (hP : 0 < m.P)
    (hLlen : m.lsh.length = m.P) (hRlen : m.rsh.length = m.P)
    (hlen : m.lhsOn.length = m.rhsOn.length)
    (H1L : ∀ x ∈ indexedRows m.lsh, ∀ c ∈ m.lhsOn, (lookupF x.2 c).isSome = true)
    (H1R : ∀ y ∈ indexedRows m.rsh, ∀ c ∈ m.rhsOn, (lookupF y.2 c).isSome = true)
    (H2 : ∀ x ∈ indexedRows m.lsh, ∀ y ∈ indexedRows m.rsh,
      rowsMatch m.lhsOn m.rhsOn x.2 y.2 = true →
      computeHashFrom 0 x.2 m.lhsOn = computeHashFrom 0 y.2 m.rhsOn) :
    C1Statement m := by
  have hrun := runMerge_eq m hP hRlen hlen H1L H1R
  have hperm := joinOuts_flatten_perm m hP hLlen hRlen H2
  have hcount : ((joinOuts m).map List.length).sum = (matchingPairs m).length := by
    rw [← List.length_flatten, hperm.length_eq]
    exact List.length_map _ _
  refine ⟨joinOuts m, hrun, ?_, hcount, hperm⟩
  unfold totalMerged
  rw [hrun]
  show some (((joinOuts m).map List.length).sum) = some (matchingPairs m).length
  rw [hcount]

/-- Witness for C1 (amended): a one-rank instance with a single matching
pair of scalar-keyed rows satisfies every premise, and the amended law
holds on it. -/
theorem C1_completeness_amended_witness :
    C1Statement ⟨1, [[[("k", Json.int 1)]]], [[[("k", Json.int 1)]]], ["k"], ["k"], [], []⟩ :=
  C1_completeness_amended ⟨1, [[[("k", Json.int 1)]]], [[[("k", Json.int 1)]]], ["k"], ["k"], [], []⟩
    (by decide) (by decide) (by decide) (by decide) (by decide) (by decide) (by decide)

/-- Counterexample to C1 as stated: on `cexM1` the single left and right
rows match under JSON value equality (claim C1's completeness condition),
but their join values are objects with reordered keys, which the
order-sensitive row hash sends to different partitions; the run joins 0
records while the claimed count is 1. -/
theorem C1_completeness_counterexample : ¬ C1Statement cexM1 := by
  intro h
  rcases h with ⟨outs, _, h2, _, _⟩
  have he : totalMerged cexM1 = some 0 := by decide
  have hl : (matchingPairs cexM1).length = 1 := by decide
  rw [he, hl] at h2
  simp at h2
